import Mathlib

/-!
# Verification of the `dawging` DAWG builder

Shallow embedding of `src/dawg/unsync.rs`, `src/dawg/sync.rs`,
`src/dawg/common.rs` and `src/utils.rs` (a Rust incremental DAWG —
directed acyclic word graph — builder), together with proofs settling the
frozen claims about it.

Modelling conventions:
* A Rust `String` word is modelled as `List Char` (Rust compares `String`s
  by UTF-8 byte order, which coincides with code-point lexicographic order,
  and `split_terminator("").skip(1)` splits a string into its Unicode
  scalar values, i.e. its `Char`s).
* Edge labels (`HashMap<String, Node>` keys) are single-character strings
  by construction — `split_to_vec` only ever yields one-scalar strings —
  so they are modelled as `Char`.
* The node heap of `Rc<RefCell<DawgNode>>` cells is modelled as an
  association list from node id to node payload; `Rc` handles become node
  ids.  `DawgWrapper.create` assigns ids `0, 1, 2, …` in creation order.
* `HashMap` iteration order is unspecified in Rust; the model fixes it to
  insertion order (`insert` of a present key replaces in place, of an
  absent key appends).  Claims about iteration-order independence are
  settled against this semantics; a universal claim refuted for this
  admissible order is refuted for the source.
* Panics (`panic!`, index out of bounds, arithmetic underflow) and
  non-termination are modelled by `Option`/`none` results.
* `as i8` / `as usize` casts are modelled by explicit two's-complement
  wrapping on `Int`.
-/

/-- Payload of a `DawgNode` (`unsync.rs` lines 5–15): terminal flag, edge
map (label to child id, in map-iteration order) and the memoized count.
The node's own `id` is the key under which it is stored. -/
structure NodeData where
  terminal : Bool
  edges : List (Char × Nat)
  count : Nat
deriving DecidableEq

/-- Models `DawgNode::new` (`unsync.rs` line 37): non-terminal, no edges, count 0. -/
def defaultNode : NodeData := ⟨false, [], 0⟩

/-- The node heap: association list from node id to payload. -/
abbrev Store := List (Nat × NodeData)

/-- Dereference a node id (an `Rc` handle) in the heap.  A missing id
yields the freshly-allocated shape; reachable code only dereferences
allocated ids. -/
def getNode : Store → Nat → NodeData
  | [], _ => defaultNode
  | (j, nd) :: rest, i => if i = j then nd else getNode rest i

/-- Overwrite the payload of node `i` (mutation through the `RefCell`). -/
def setNode : Store → Nat → NodeData → Store
  | [], i, nd => [(i, nd)]
  | (j, m) :: rest, i, nd => if i = j then (i, nd) :: rest else (j, m) :: setNode rest i nd

/-- Rust's `HashMap::get` on the edge map of a node (label lookup). -/
def lookupEdge : List (Char × Nat) → Char → Option Nat
  | [], _ => none
  | (l, t) :: r, c => if c = l then some t else lookupEdge r c

/-- Rust's `HashMap::insert` on the edge map: replace in place if the label is
present, append otherwise (the model's fixed iteration order). -/
def insertEdge : List (Char × Nat) → Char → Nat → List (Char × Nat)
  | [], c, t => [(c, t)]
  | (l, u) :: r, c, t => if c = l then (c, t) :: r else (l, u) :: insertEdge r c t

/-- Rust's `HashMap::get` on the `minimized_nodes` registry (signature lookup). -/
def lookupSig : List (List Char × Nat) → List Char → Option Nat
  | [], _ => none
  | (s, m) :: r, k => if k = s then some m else lookupSig r k

/-- Rust's `HashMap::insert` on the `minimized_nodes` registry. -/
def insertSig : List (List Char × Nat) → List Char → Nat → List (List Char × Nat)
  | [], k, m => [(k, m)]
  | (s, n) :: r, k, m => if k = s then (k, m) :: r else (s, n) :: insertSig r k m

/-- Little-endian decimal digit characters of `n`; the fuel dominates the
number of digits (any fuel at least `n` is enough). -/
def natCharsAux : Nat → Nat → List Char
  | 0, _ => []
  | fuel + 1, n => if n = 0 then [] else Nat.digitChar (n % 10) :: natCharsAux fuel (n / 10)

/-- Decimal rendering of a node id (`id.to_string()` in the `Display`
impl), as a character list. -/
def natChars (n : Nat) : List Char :=
  if n = 0 then ['0'] else (natCharsAux n n).reverse

/-- The edge part of a node's signature: for each `(key, value)` pair of
the edge map, in iteration order, the child id then the label, each
preceded by the `"_"` joiner (`unsync.rs` lines 72–78: `arr.push(id);
arr.push(key)` then `arr.join("_")`). -/
def sigEdges : List (Char × Nat) → List Char
  | [] => []
  | (l, t) :: r => '_' :: (natChars t ++ '_' :: l :: sigEdges r)

/-- Models `DawgNode`'s `Display` rendering (`unsync.rs` lines 63–81): `"1"` or
`"0"` for the terminal flag, then the edge pairs, all joined by `"_"`.
Labels are NOT sorted: the map's iteration order is used as-is. -/
def sigNode (nd : NodeData) : List Char :=
  (if nd.terminal then '1' else '0') :: sigEdges nd.edges

/-- Signature of the node with id `i` (`child.try_borrow().unwrap().to_string()`). -/
def sigChars (σ : Store) (i : Nat) : List Char := sigNode (getNode σ i)

/-- The builder state (`unsync.rs` `struct Dawg`, lines 134–141), with the
id counter of the `DawgWrapper` inlined as `nextId`. -/
structure Dawg where
  store : Store
  nextId : Nat
  root : Nat
  minimized : List (List Char × Nat)
  unchecked : List (Nat × Char × Nat)
  previousWord : List Char
deriving DecidableEq

/-- Models `Dawg::new` (`unsync.rs` lines 145–154): a fresh root node with id 0,
empty registry, empty frontier, empty previous word. -/
def dawgNew : Dawg := ⟨[(0, defaultNode)], 1, 0, [], [], []⟩

/-- Casting `n as i8` on a `usize` value: two's-complement truncation to 8 bits. -/
def toI8 (n : Nat) : Int :=
  (n % 256 : Nat) - (if n % 256 < 128 then 0 else 256)

/-- Wrapping of an `Int` into the `i8` range (release-mode overflow). -/
def wrap8 (x : Int) : Int := (x + 128) % 256 - 128

/-- Computes `x - 1` in `i8` arithmetic. -/
def i8Sub1 (x : Int) : Int := wrap8 (x - 1)

/-- Casting `start as usize` for an `i8` value: sign-extend then reinterpret as
a 64-bit unsigned integer. -/
def toUsize (x : Int) : Nat := (x % (2 ^ 64)).toNat

/-- One iteration of the body of `Dawg::minimize`'s while loop
(`unsync.rs` lines 160–175) at frontier index `i`: compute the child's
signature, then either redirect the parent's edge to the registered
canonical node or register the child, then pop the frontier. -/
def minimizeStep (d : Dawg) (i : Nat) : Dawg :=
  match d.unchecked.get? i with
  | none => d
  | some (parent, letter, child) =>
    match lookupSig d.minimized (sigChars d.store child) with
    | some m =>
      { d with
        store := setNode d.store parent
          { getNode d.store parent with
            edges := insertEdge (getNode d.store parent).edges letter m },
        unchecked := d.unchecked.dropLast }
    | none =>
      { d with
        minimized := insertSig d.minimized (sigChars d.store child) child,
        unchecked := d.unchecked.dropLast }

/-- The while loop of `Dawg::minimize`: `while start > end { let i = start
as usize; …body…; start -= 1 }`.  The loop makes at most 256 iterations
when entered from `minimize` (both bounds are `i8` values); the fuel is
defensive and never runs out on those calls. -/
def minimizeLoop (d : Dawg) (start endv : Int) : Nat → Option Dawg
  | 0 => none
  | fuel + 1 =>
    if start > endv then
      let i := toUsize start
      if i < d.unchecked.length then
        minimizeLoop (minimizeStep d i) (i8Sub1 start) endv fuel
      else none
    else some d

/-- Models `Dawg::minimize` (`unsync.rs` lines 156–176).  Note the `as i8` casts:
`start = unchecked_nodes.len() as i8 - 1`, `end = down_to as i8 - 1`,
with i8 (wrapping) arithmetic. -/
def minimize (d : Dawg) (downTo : Nat) : Option Dawg :=
  minimizeLoop d (i8Sub1 (toI8 d.unchecked.length)) (i8Sub1 (toI8 downTo)) 256

/-- Lexicographic strict order on words, matching Rust's `String`
comparison (UTF-8 byte order coincides with `Char` code-point order). -/
def listLt : List Char → List Char → Bool
  | [], [] => false
  | [], _ :: _ => true
  | _ :: _, [] => false
  | a :: as, b :: bs => if a < b then true else if b < a then false else listLt as bs

/-- The common-prefix loop of `Dawg::add` (`unsync.rs` lines 188–195):
the length of the longest common prefix of the two character vectors. -/
def commonPrefixLen : List Char → List Char → Nat
  | a :: as, b :: bs => if a = b then commonPrefixLen as bs + 1 else 0
  | _, _ => 0

/-- The frontier tip of the extension loop (`unsync.rs` lines 201–206):
the child of the last unchecked triple, or the root if the frontier is
empty. -/
def frontTip (d : Dawg) : Nat :=
  match d.unchecked.getLast? with
  | some e => e.2.2
  | none => d.root

/-- One iteration of the extension loop of `Dawg::add` (`unsync.rs` lines
199–213): read the frontier tip, allocate a fresh node (`create`), insert
the edge from the tip, and push the `(parent, letter, child)` triple. -/
def attachOne (d : Dawg) (letter : Char) : Dawg :=
  { d with
    store := setNode d.store (frontTip d)
        { getNode d.store (frontTip d) with
          edges := insertEdge (getNode d.store (frontTip d)).edges letter d.nextId }
      ++ [(d.nextId, defaultNode)],
    nextId := d.nextId + 1,
    unchecked := d.unchecked ++ [(frontTip d, letter, d.nextId)] }

/-- The extension loop of `Dawg::add`, one `attachOne` per remaining
letter. -/
def attachLoop (d : Dawg) : List Char → Dawg
  | [] => d
  | letter :: rest => attachLoop (attachOne d letter) rest

/-- The terminal-marking epilogue of `Dawg::add` (`unsync.rs` lines
215–217): `let last_unchecked = self.unchecked_nodes.len() - 1` underflows
(panics, modelled `none`) on an empty frontier; otherwise the child of
the last unchecked triple is marked terminal. -/
def markLastTerminal (d : Dawg) : Option Dawg :=
  match d.unchecked.getLast? with
  | none => none
  | some e =>
    some { d with
           store := setNode d.store e.2.2 { getNode d.store e.2.2 with terminal := true } }

/-- Models `Dawg::add` (`unsync.rs` lines 178–219).  `none` models a panic: the
explicit `panic!` on unsorted input (line 180), a panic inside
`minimize`, or the `self.unchecked_nodes.len() - 1` usize underflow at
line 215 when the frontier is empty. -/
def add (d : Dawg) (w : List Char) : Option Dawg :=
  if listLt w d.previousWord then none
  else
    match minimize d (commonPrefixLen w d.previousWord) with
    | none => none
    | some d1 =>
      match markLastTerminal (attachLoop d1 (w.drop (commonPrefixLen w d.previousWord))) with
      | none => none
      | some d2 => some { d2 with previousWord := w }

/-- Number of UTF-8 bytes of a scalar value (what `String::len` counts). -/
def byteSize (c : Char) : Nat :=
  if c.toNat < 0x80 then 1
  else if c.toNat < 0x800 then 2
  else if c.toNat < 0x10000 then 3
  else 4

/-- Rust's `word.len()`: the UTF-8 byte length of a word. -/
def byteLen (w : List Char) : Nat := (w.map byteSize).sum

/-- ASCII uppercasing, the effect of Rust's `to_uppercase` on the ASCII
strings all claims are about (full Unicode case mapping is out of
scope of the model). -/
def asciiUpper (c : Char) : Char :=
  if 'a' ≤ c ∧ c ≤ 'z' then Char.ofNat (c.toNat - 32) else c

/-- The case-insensitive branch of `Dawg::find` (`unsync.rs` lines
246–257): the first edge whose uppercased label equals the uppercased
query letter, in map-iteration order. -/
def findCI : List (Char × Nat) → Char → Option Nat
  | [], _ => none
  | (l, t) :: r, u => if asciiUpper l = u then some t else findCI r u

/-- The loop of `Dawg::find` (`unsync.rs` lines 232–259).  The loop runs
over BYTE indices `0..word.len()` while indexing the per-character
vector `word_vec`: `i` is the current index, the fuel is the number of
remaining byte indices.  `none` models the out-of-bounds panic of
`word_vec[i]`. -/
def findAux (σ : Store) (cs : List Char) (caseSensitive : Bool) : Nat → Nat → Nat → Option (Option Nat)
  | node, _, 0 => some (some node)
  | node, i, fuel + 1 =>
    if h : i < cs.length then
      if caseSensitive then
        match lookupEdge (getNode σ node).edges (cs.get ⟨i, h⟩) with
        | some t => findAux σ cs caseSensitive t (i + 1) fuel
        | none => some none
      else
        match findCI (getNode σ node).edges (asciiUpper (cs.get ⟨i, h⟩)) with
        | some t => findAux σ cs caseSensitive t (i + 1) fuel
        | none => some none
    else none

/-- Models `Dawg::find` (`unsync.rs` lines 228–261).  Outer `none` is a panic;
`some none` is the `return None` (no matching transition); `some (some
n)` is `Some(SearchRes)` with final node `n`. -/
def find (d : Dawg) (w : List Char) (caseSensitive : Bool) : Option (Option Nat) :=
  findAux d.store w caseSensitive d.root 0 (byteLen w)

/-- Models `Dawg::is_word` (`unsync.rs` lines 264–272): `Some(word)` iff the
traversal completes at a terminal node. -/
def isWord (d : Dawg) (w : List Char) (caseSensitive : Bool) : Option (Option (List Char)) :=
  match find d w caseSensitive with
  | none => none
  | some none => some none
  | some (some n) => some (if (getNode d.store n).terminal then some w else none)

/-- Models `Dawg::lookup` (`unsync.rs` lines 275–282): despite its doc comment
("find out if word is a prefix of anything in the dictionary") it returns
the final node only when that node is terminal. -/
def lookup (d : Dawg) (w : List Char) (caseSensitive : Bool) : Option (Option Nat) :=
  match find d w caseSensitive with
  | none => none
  | some none => some none
  | some (some n) => some (if (getNode d.store n).terminal then some n else none)

/-- Did `is_word` return `Some`? -/
def isWordHit (d : Dawg) (w : List Char) (caseSensitive : Bool) : Bool :=
  match isWord d w caseSensitive with
  | some (some _) => true
  | _ => false

/-- Edge targets of a node, for reachability. -/
def succsOf (σ : Store) (i : Nat) : List Nat := ((getNode σ i).edges).map (·.2)

/-- One round of reachability closure. -/
def expandReach (σ : Store) (cur : List Nat) : List Nat :=
  (cur ++ cur.flatMap (succsOf σ)).dedup

/-- Iterates `fuel` rounds of reachability closure from the seed handles. -/
def reachN (σ : Store) (seeds : List Nat) : Nat → List Nat
  | 0 => seeds.dedup
  | n + 1 => expandReach σ (reachN σ seeds n)

/-- The ids of live `Rc` cells: everything reachable from the strong
handles the builder holds (`self.root`, the registry values, the frontier
triples).  `nextId` rounds of closure saturate on any store the builder
builds. -/
def liveNodes (d : Dawg) : List Nat :=
  reachN d.store
    (d.root :: d.minimized.map (·.2) ++ d.unchecked.flatMap (fun e => [e.1, e.2.2]))
    d.nextId

/-- The `Rc` strong count of node `id`: `Rc::get_mut` in `num_reachable`
succeeds exactly when this is 1.  Derived from the live references: the
`self.root` handle, one per edge of a live node targeting `id`, one per
registry value, one per frontier parent/child slot.  (The heap is
acyclic, so a cell is live exactly when reachable from the builder's
handles, and dropped cells hold no references.) -/
def rcOf (d : Dawg) (id : Nat) : Nat :=
  (if id = d.root then 1 else 0)
    + ((liveNodes d).map (fun x => ((getNode d.store x).edges.filter (fun e => e.2 = id)).length)).sum
    + (d.minimized.filter (fun m => m.2 = id)).length
    + (d.unchecked.filter (fun e => e.1 = id)).length
    + (d.unchecked.filter (fun e => e.2.2 = id)).length

/-- Models `DawgNode::num_reachable` of `unsync.rs` (lines 41–60), processing a
worklist of sibling node ids and threading the heap.  For each node: an
already-nonzero memoized count is returned as is; otherwise 1 is counted
for a terminal node, each child is recursed into only when `Rc::get_mut`
succeeds (strong count 1), and then — the reset at line 58 — the node's
memoized count is set to `0` (not to the computed value) before the
computed count is returned.  The fuel bounds the call-tree depth; the
heap is acyclic and uniquely-owned along recursed paths, so the fuel
`finish` passes is never exhausted (and the count fields never influence
any query function in any case). -/
def nrGo (rc : Nat → Nat) : Nat → Store → List Nat → Store × Nat
  | 0, σ, _ => (σ, 0)
  | _ + 1, σ, [] => (σ, 0)
  | fuel + 1, σ, id :: rest =>
    let nd := getNode σ id
    let r1 : Store × Nat :=
      if nd.count ≠ 0 then (σ, nd.count)
      else
        let kids := (nd.edges.map (·.2)).filter (fun t => rc t = 1)
        let r0 := nrGo rc fuel σ kids
        (setNode r0.1 id { getNode r0.1 id with count := 0 },
         (if nd.terminal then 1 else 0) + r0.2)
    let r2 := nrGo rc fuel r1.1 rest
    (r2.1, r1.2 + r2.2)

/-- Models `Dawg::finish` (`unsync.rs` lines 221–226): `minimize(0)`, then
`num_reachable` on the root (the returned count is discarded), then the
registry and the frontier are cleared. -/
def finish (d : Dawg) : Option Dawg :=
  match minimize d 0 with
  | none => none
  | some d1 =>
    let σ2 := (nrGo (rcOf d1) (2 * d1.nextId + 2) d1.store [d1.root]).1
    some { d1 with store := σ2, minimized := [], unchecked := [] }

/-- Insert a list of words in order; `none` as soon as one `add` panics. -/
def buildFrom (d : Dawg) : List (List Char) → Option Dawg
  | [] => some d
  | w :: ws =>
    match add d w with
    | some d1 => buildFrom d1 ws
    | none => none

/-- Runs `Dawg::new`, the `add` calls, then one `finish`. -/
def buildFinish (ws : List (List Char)) : Option Dawg :=
  match buildFrom dawgNew ws with
  | some d => finish d
  | none => none

/-- Pure traversal of the automaton by exact labels (the mathematical
object `find` computes on all-ASCII input). -/
def walk (σ : Store) : Nat → List Char → Option Nat
  | node, [] => some node
  | node, c :: r =>
    match lookupEdge (getNode σ node).edges c with
    | some t => walk σ t r
    | none => none

/-- The language test: does the traversal of `w` from `node` end at a
terminal node? -/
def accepts (σ : Store) (node : Nat) (w : List Char) : Bool :=
  match walk σ node w with
  | some t => (getNode σ t).terminal
  | none => false

/-- Traversal with the mode of `find`: exact labels when case-sensitive,
first uppercase-matching label otherwise. -/
def walkG (σ : Store) (caseSensitive : Bool) : Nat → List Char → Option Nat
  | node, [] => some node
  | node, c :: r =>
    match (if caseSensitive then lookupEdge (getNode σ node).edges c
           else findCI (getNode σ node).edges (asciiUpper c)) with
    | some t => walkG σ caseSensitive t r
    | none => none

/-! ## The thread-shared (`sync.rs`) variant

`sync.rs` operates on the same builder-state shape (`common.rs`'s generic
`Dawg<T>`), so it is modelled over the same `Dawg` structure. -/

/-- Models `Dawg::minimize_sync` (`sync.rs` lines 38–63).  The while loop at line
42 is `while start > end {}` — an EMPTY body, so the loop spins forever
whenever `start > end`; this is modelled as `none`.  Otherwise the body
that was meant to be the loop body runs exactly once, unconditionally:
`let i = start as usize;` then `self.unchecked_nodes[i]`, which panics
(`none`) whenever `i` is out of bounds (in particular `start = -1` gives
`i = 2^64 - 1` on an empty frontier).  Inside, `lock()` always returns
`Ok` (no poisoning), so the `if let Ok(..)` always takes the first
branch, whose `edges.insert(..).unwrap()` panics when the insert returns
`None` (no previous value under that key). -/
def minimizeSync (d : Dawg) (downTo : Nat) : Option Dawg :=
  let start := i8Sub1 (toI8 d.unchecked.length)
  let endv := i8Sub1 (toI8 downTo)
  if start > endv then none
  else
    let i := toUsize start
    match d.unchecked.get? i with
    | none => none
    | some (parent, letter, child) =>
      let s := sigChars d.store child
      match lookupSig d.minimized s with
      | some m =>
        let pd := getNode d.store parent
        match lookupEdge pd.edges letter with
        | none => none
        | some _ =>
          some { d with
                 store := setNode d.store parent { pd with edges := insertEdge pd.edges letter m },
                 unchecked := d.unchecked.dropLast }
      | none => some d

/-- Models `Dawg::add_sync` (`sync.rs` lines 65–107).  The common-prefix loop at
lines 76–80 only breaks on a mismatch and never increments
`common_prefix`, which therefore stays `0`.  In the extension loop the
edge inserted is `Arc::clone(&node.get_sync().unwrap())` — the PARENT
itself, not the freshly created `next_node` — and the pushed triple is
`(node, letter, node)`, so both slots hold the parent; `next_node` is
created (the id counter advances) but dropped unused. -/
def addSync (d : Dawg) (w : List Char) : Option Dawg :=
  if listLt w d.previousWord then none
  else
    let cp := 0
    match minimizeSync d cp with
    | none => none
    | some d1 =>
      let d2 := (w.drop cp).foldl
        (fun (acc : Dawg) letter =>
          let tip := match acc.unchecked.getLast? with
                     | some e => e.2.2
                     | none => acc.root
          let tipData := getNode acc.store tip
          { acc with
            store := setNode acc.store tip { tipData with edges := insertEdge tipData.edges letter tip }
                       ++ [(acc.nextId, defaultNode)],
            nextId := acc.nextId + 1,
            unchecked := acc.unchecked ++ [(tip, letter, tip)] }) d1
      match d2.unchecked.getLast? with
      | none => none
      | some e =>
        let child := e.2.2
        let cd := getNode d2.store child
        some { d2 with
               store := setNode d2.store child { cd with terminal := true },
               previousWord := w }

/-! ## Derived specification functions -/

/-- Pointwise agreement of two heaps on the fields the query engine reads
(terminal flag and edge map); the memoized counts may differ. -/
def EqTE (σ1 σ2 : Store) : Prop :=
  ∀ y, (getNode σ1 y).terminal = (getNode σ2 y).terminal ∧
       (getNode σ1 y).edges = (getNode σ2 y).edges

/-- Plain bottom-up minimization of the `k` deepest frontier entries:
the loop body of `minimize` applied `k` times, always at the tail
(deepest entry first). -/
def iterateMin (d : Dawg) : Nat → Dawg
  | 0 => d
  | k + 1 => iterateMin (minimizeStep d (d.unchecked.length - 1)) k

/-- A concrete two-entry-frontier builder state (after `add("ab")`),
used to instantiate universally quantified theorems. -/
def dawgAB : Dawg := (add dawgNew ['a', 'b']).getD dawgNew

/-- The concrete finished automaton of the single word "cat", used to
instantiate universally quantified theorems. -/
def dawgCat : Dawg := (buildFinish [['c', 'a', 't']]).getD dawgNew

/-- No node of the heap carries two distinct transition labels that
coincide after ASCII uppercasing (so each case-insensitive step has at
most one matching edge). -/
def noCaseCollision (σ : Store) : Prop :=
  ∀ p ∈ σ, (p.2.edges.map (fun e => asciiUpper e.1)).Nodup

/-! ## The construction invariant (infrastructure for C1) -/

/-- The unchecked frontier is a well-formed path from `p`: each triple's
parent is the node the path has reached, the parent's edge at the
triple's letter points at the triple's child, and every label on the
parent is at most that letter (labels grow left to right because words
arrive in sorted order). -/
def frontierOK (σ : Store) : Nat → List (Nat × Char × Nat) → Prop
  | _, [] => True
  | p, (q, c, ch) :: rest =>
    q = p ∧ lookupEdge (getNode σ p).edges c = some ch ∧
    (∀ e ∈ (getNode σ p).edges, e.1 ≤ c) ∧ frontierOK σ ch rest

/-- The nodes along the frontier path, root first then each triple's
child. -/
def pathNodes (d : Dawg) : List Nat := d.root :: d.unchecked.map (fun e => e.2.2)

/-- The end of a frontier path starting at `p`: the last triple's child,
or `p` itself for an empty frontier (`frontTip` with an explicit start). -/
def lastNode (p : Nat) (l : List (Nat × Char × Nat)) : Nat :=
  match l.getLast? with
  | some e => e.2.2
  | none => p

/-- Node `y` has exactly one incoming edge in the whole heap: the edge
labelled `c` out of `px`. -/
def UniqIn (σ : Store) (px : Nat) (c : Char) (y : Nat) : Prop :=
  ∀ x : Nat, ∀ e ∈ (getNode σ x).edges, e.2 = y → x = px ∧ e.1 = c

/-- The core construction invariant, relating a builder state to the list
`ws` of words inserted so far.  It holds after `Dawg::new` and is
maintained by every `add` (for sorted, non-empty, ASCII words of at most
128 characters) and through each `minimize` pop. -/
structure Core (d : Dawg) (ws : List (List Char)) : Prop where
  storeKeys : d.store.map Prod.fst = List.range d.nextId
  edgesLt : ∀ x : Nat, ∀ e ∈ (getNode d.store x).edges, e.2 < d.nextId
  minimizedLt : ∀ m ∈ d.minimized, m.2 < d.nextId
  frontier : frontierOK d.store d.root d.unchecked
  pathMono : List.Chain' (fun a b => a < b) (pathNodes d)
  pathLt : ∀ x ∈ pathNodes d, x < d.nextId
  pathUniq : ∀ e ∈ d.unchecked, UniqIn d.store e.1 e.2.1 e.2.2
  rootNoIn : ∀ x : Nat, ∀ e ∈ (getNode d.store x).edges, e.2 ≠ d.root
  regNotPath : ∀ m ∈ d.minimized, m.2 ∉ pathNodes d
  regSig : ∀ m ∈ d.minimized, sigChars d.store m.2 = m.1
  rootNotTerminal : (getNode d.store d.root).terminal = false
  labelsAscii : ∀ x : Nat, ∀ e ∈ (getNode d.store x).edges, e.1.toNat < 128
  lenBound : d.unchecked.length ≤ 128
  lang : ∀ q : List Char, accepts d.store d.root q = true ↔ q ∈ ws

/-- The full between-operations invariant: the core plus the frontier
letters spelling the previous word and the frontier tip being a fresh
leaf. -/
structure DawgInv (d : Dawg) (ws : List (List Char)) extends Core d ws : Prop where
  lettersEq : d.unchecked.map (fun e => e.2.1) = d.previousWord
  tipEmpty : (getNode d.store (frontTip d)).edges = []

/-- A word the amended C1 admits: non-empty, at most 128 characters (so
the i8 frontier arithmetic stays sound), pure ASCII. -/
def goodWord (w : List Char) : Prop :=
  w ≠ [] ∧ w.length ≤ 128 ∧ ∀ c ∈ w, c.toNat < 128

/-! ## Heap lemmas -/

theorem getNode_setNode (σ : Store) (i : Nat) (nd : NodeData) (y : Nat) :
    getNode (setNode σ i nd) y = if y = i then nd else getNode σ y := by
  induction σ with
  | nil => simp [setNode, getNode]
  | cons p rest ih =>
    obtain ⟨j, m⟩ := p
    simp only [setNode]
    by_cases hij : i = j
    · subst hij
      simp only [if_pos rfl, getNode]
      by_cases hy : y = i <;> simp [hy]
    · rw [if_neg hij]
      by_cases hy : y = j
      · subst hy
        rw [getNode, if_pos rfl, getNode, if_neg (fun h : y = i => hij h.symm), if_pos rfl]
      · rw [getNode, if_neg hy, ih, getNode, if_neg hy]

theorem eqTE_refl (σ : Store) : EqTE σ σ := fun _ => ⟨rfl, rfl⟩

theorem eqTE_trans {σ1 σ2 σ3 : Store} (h1 : EqTE σ1 σ2) (h2 : EqTE σ2 σ3) :
    EqTE σ1 σ3 := fun y =>
  ⟨(h1 y).1.trans (h2 y).1, (h1 y).2.trans (h2 y).2⟩

theorem eqTE_setNode_count (σ : Store) (i : Nat) (c : Nat) :
    EqTE (setNode σ i { getNode σ i with count := c }) σ := by
  intro y
  rw [getNode_setNode]
  by_cases hy : y = i
  · subst hy; simp
  · simp [hy]

theorem nrGo_eqTE (rc : Nat → Nat) :
    ∀ (fuel : Nat) (σ : Store) (ids : List Nat), EqTE (nrGo rc fuel σ ids).1 σ := by
  intro fuel
  induction fuel with
  | zero => intro σ ids; exact eqTE_refl σ
  | succ f ih =>
    intro σ ids
    cases ids with
    | nil => exact eqTE_refl σ
    | cons id rest =>
      simp only [nrGo]
      refine eqTE_trans (ih _ rest) ?_
      by_cases h : (getNode σ id).count ≠ 0
      · rw [if_pos h]
        exact eqTE_refl σ
      · rw [if_neg h]
        exact eqTE_trans (eqTE_setNode_count _ _ _) (ih σ _)

/-! ## Query congruence under count-only heap changes -/

theorem findAux_congr {σ1 σ2 : Store} (h : EqTE σ1 σ2) (cs : List Char) (cse : Bool) :
    ∀ (fuel node i : Nat), findAux σ1 cs cse node i fuel = findAux σ2 cs cse node i fuel := by
  intro fuel
  induction fuel with
  | zero => intro node i; rfl
  | succ f ih =>
    intro node i
    simp only [findAux]
    by_cases hi : i < cs.length
    · rw [dif_pos hi, dif_pos hi, (h node).2]
      cases cse
      · rw [if_neg Bool.false_ne_true, if_neg Bool.false_ne_true]
        cases findCI (getNode σ2 node).edges (asciiUpper (cs.get ⟨i, hi⟩)) with
        | none => rfl
        | some t => exact ih t (i + 1)
      · rw [if_pos rfl, if_pos rfl]
        cases lookupEdge (getNode σ2 node).edges (cs.get ⟨i, hi⟩) with
        | none => rfl
        | some t => exact ih t (i + 1)
    · rw [dif_neg hi, dif_neg hi]

theorem isWord_eq_of_store (σ1 σ2 : Store) (h : EqTE σ1 σ2)
    (n1 n2 root : Nat) (mz1 mz2 : List (List Char × Nat))
    (uc1 uc2 : List (Nat × Char × Nat)) (pw1 pw2 : List Char) (w : List Char) (cse : Bool) :
    isWord ⟨σ1, n1, root, mz1, uc1, pw1⟩ w cse = isWord ⟨σ2, n2, root, mz2, uc2, pw2⟩ w cse := by
  unfold isWord find
  simp only
  rw [findAux_congr h w cse (byteLen w) root 0]
  cases findAux σ2 w cse root 0 (byteLen w) with
  | none => rfl
  | some o =>
    cases o with
    | none => rfl
    | some n => simp [(h n).1]

theorem finish_isWord_eq (d : Dawg) (w : List Char) (cse : Bool) :
    (finish d).map (fun x => isWord x w cse)
      = (minimize d 0).map (fun x => isWord x w cse) := by
  unfold finish
  cases h : minimize d 0 with
  | none => rfl
  | some d1 =>
    simp only [Option.map_some']
    exact congrArg some
      (isWord_eq_of_store _ _ (nrGo_eqTE _ _ _ _) d1.nextId d1.nextId d1.root
        [] d1.minimized [] d1.unchecked d1.previousWord d1.previousWord w cse)

theorem buildFinish_isWord_eq (ws : List (List Char)) (w : List Char) (cse : Bool) :
    (buildFinish ws).map (fun x => isWord x w cse)
      = ((buildFrom dawgNew ws).bind (fun d => minimize d 0)).map (fun x => isWord x w cse) := by
  unfold buildFinish
  cases h : buildFrom dawgNew ws with
  | none => rfl
  | some d => exact finish_isWord_eq d w cse

/-! ## Claim C2 — the count computation resets the root's count -/

/-- Claim C2 (code bug): the claim says that after `add`-ing a sorted
duplicate-free word list and calling `finish`, the root's stored `count`
equals the number of inserted words and is retained.  The code
(`unsync.rs` line 58, `self.count = 0`) instead resets the memoized count
to zero after computing it, so after inserting the single word "cat" the
root's count is `0`, not `1`. -/
theorem claim_C2_root_count_reset :
    (buildFinish [['c', 'a', 't']]).map (fun d => (getNode d.store d.root).count) = some 0
    ∧ (buildFinish [['c', 'a', 't']]).map (fun d => (getNode d.store d.root).count) ≠ some 1 := by
  exact ⟨by decide, by decide⟩

/-! ## Claim C3 — `lookup` demands a terminal node -/

/-- Claim C3 (code bug): after inserting `["cat", "cats", "dog"]` and
finishing, the traversal of `"ca"` completes (`find` returns a node), yet
`lookup "ca"` — documented as the prefix query — returns `None` because
the reached node is not terminal, while `is_word "cat"` succeeds.  The
claim (and `lookup`'s own doc comment) says the prefix query succeeds
whenever the traversal completes. -/
theorem claim_C3_lookup_checks_terminal :
    (buildFinish [['c', 'a', 't'], ['c', 'a', 't', 's'], ['d', 'o', 'g']]).map
      (fun d => ((find d ['c', 'a'] true).map Option.isSome,
                 lookup d ['c', 'a'] true,
                 isWord d ['c', 'a', 't'] true))
      = some (some true, some none, some (some ['c', 'a', 't'])) := by decide

/-! ## Claim C5 — the thread-shared variant panics on its first `add` -/

/-- Claim C5 (code bug): the claim says the thread-shared variant
(`add_sync`/`minimize_sync`) terminates and gives the same results as the
single-owner variant.  In the source, `minimize_sync`'s while loop has an
empty body (`while start > end {}`, `sync.rs` line 42) and the code meant
to be its body runs once unconditionally, indexing
`unchecked_nodes[start as usize]`; on the very first `add_sync("a")` the
frontier is empty, `start = -1`, and the index `2^64 - 1` panics — while
the single-owner `add("a")` succeeds. -/
theorem claim_C5_sync_first_add_panics :
    addSync dawgNew ['a'] = none ∧ (add dawgNew ['a']).isSome = true := by
  exact ⟨by decide, by decide⟩

/-! ## Claim C7 — unsorted `add` is rejected -/

/-- Claim C7 (confirmed): `add` called with a word lexicographically
strictly below `previous_word` fails before touching any builder state
(`unsync.rs` lines 179–181; the `panic!` fires as the first statement,
modelled as `none`), so nothing is inserted. -/
theorem claim_C7_unsorted_add_rejected (d : Dawg) (w : List Char)
    (h : listLt w d.previousWord = true) : add d w = none := by
  simp [add, h]

/-- Witness for C7: after `add("c")`, the call `add("b")` is an ordering
violation and is rejected. -/
theorem claim_C7_witness :
    listLt ['b'] (((add dawgNew ['c']).getD dawgNew).previousWord) = true
    ∧ add ((add dawgNew ['c']).getD dawgNew) ['b'] = none :=
  ⟨by decide, claim_C7_unsorted_add_rejected _ _ (by decide)⟩

/-! ## Claim C4 — minimize at a frontier of 129 entries -/

set_option maxRecDepth 40000 in
/-- Claim C4 (counterexample): with 129 frontier entries (built by one
`add` of a 129-character word) and `down_to = 0`, `minimize` removes
NOTHING — `129 as i8 = -127`, so `start = -128` and the loop guard
`start > -1` fails immediately — although the claim requires all 129
entries (depth strictly greater than 0) to be removed. -/
theorem claim_C4_counterexample :
    (add dawgNew (List.replicate 129 'a')).map
      (fun d => (d.unchecked.length, (minimize d 0).map (fun e => e.unchecked.length)))
      = some (129, some 129) := by decide

/-! ## Claim C10 — the i8 casts and the 128-entry frontier -/

set_option maxRecDepth 40000 in
/-- Claim C10 (counterexample): at exactly 128 frontier entries the cast
is NOT value-preserving (`128 as i8 = -128`), yet `minimize(0)` still
pops all 128 entries as intended, because `-128 - 1` wraps back to
`127 = 128 - 1`; this refutes the claim that the procedure pops the
intended entries only when the frontier holds at most 127 entries. -/
theorem claim_C10_counterexample :
    toI8 128 ≠ (128 : Int)
    ∧ (add dawgNew (List.replicate 128 'a')).map
        (fun d => (d.unchecked.length, (minimize d 0).map (fun e => e.unchecked.length)))
        = some (128, some 0) := by
  exact ⟨by decide, by decide⟩

/-! ## Claim C9 — out-of-bounds is not implied by a multi-byte character -/

/-- Claim C9 (counterexample): the query word `"né"` has byte length 3
but character count 2, yet `is_word`/`lookup` on the "cat" automaton
return without any out-of-bounds indexing (the mismatch at `'n'`'s
position returns `None` first); this refutes "free of out-of-bounds
precisely when byte length equals character count". -/
theorem claim_C9_counterexample :
    byteLen ['n', 'é'] = 3 ∧ (['n', 'é'] : List Char).length = 2
    ∧ (buildFinish [['c', 'a', 't']]).map
        (fun d => (isWord d ['n', 'é'] true, lookup d ['n', 'é'] true))
        = some (some none, some none) := by
  exact ⟨by decide, by decide, by decide⟩

/-! ## Claim C8 — case-insensitive lookup follows the first uppercase match -/

/-- Claim C8 (counterexample): on the finished automaton built from the
sorted list `["CAX", "cat"]`, the case-sensitive query for "cat" succeeds
but the case-insensitive query for "CAT" fails: at the root both labels
`'C'` and `'c'` uppercase to `'C'`, the traversal follows the first match
(the `'C'` edge into the "CAX" branch) and dies at `'T'` vs `'X'`. -/
theorem claim_C8_counterexample :
    listLt ['C', 'A', 'X'] ['c', 'a', 't'] = true
    ∧ (buildFinish [['C', 'A', 'X'], ['c', 'a', 't']]).map
        (fun d => (isWordHit d ['c', 'a', 't'] true, isWordHit d ['C', 'A', 'T'] false))
      = some (true, false) := by
  exact ⟨by decide, by decide⟩

/-! ## Claim C6 — the signature depends on map-iteration order -/

/-- Claim C6 (counterexample): two nodes with the same terminal flag and
the same label-to-child mapping (the edge lists are permutations of each
other) but different iteration orders produce DIFFERENT signature
strings: the `Display` impl does not sort the labels. -/
theorem claim_C6_counterexample :
    ([('a', 1), ('b', 2)] : List (Char × Nat)).Perm [('b', 2), ('a', 1)]
    ∧ sigNode ⟨false, [('a', 1), ('b', 2)], 0⟩ ≠ sigNode ⟨false, [('b', 2), ('a', 1)], 0⟩ := by
  exact ⟨by decide, by decide⟩

/-! ## Claim C1 — a 129-character word breaks membership -/

set_option maxRecDepth 40000 in
/-- Claim C1 (counterexample): the sorted, duplicate-free, non-empty,
all-ASCII list `["a"×129, "b"]` is inserted via `add` and finished, yet
the case-sensitive membership query for the inserted word "b" returns
`None`: the i8 cast in `minimize` makes `minimize(0)` pop nothing at a
129-entry frontier, so "b" is attached below the 129-deep "a" chain
instead of at the root. -/
theorem claim_C1_counterexample :
    listLt (List.replicate 129 'a') ['b'] = true
    ∧ (∀ c ∈ List.replicate 129 'a' ++ ['b'], c.toNat < 128)
    ∧ ['b'] ∈ [List.replicate 129 'a', ['b']]
    ∧ (buildFinish [List.replicate 129 'a', ['b']]).map (fun x => isWord x ['b'] true)
        = some (some none) := by
  refine ⟨by decide, by decide, by decide, ?_⟩
  rw [buildFinish_isWord_eq]
  decide

/-! ## Signature injectivity (C6 amended, and infrastructure for C1) -/

theorem digitChar_lt_ten_ne_underscore : ∀ d : Nat, d < 10 → Nat.digitChar d ≠ '_' := by decide

theorem digitChar_lt_ten_inj :
    ∀ d1 : Nat, d1 < 10 → ∀ d2 : Nat, d2 < 10 → Nat.digitChar d1 = Nat.digitChar d2 → d1 = d2 := by
  decide

theorem mem_natCharsAux {c : Char} :
    ∀ (fuel n : Nat), c ∈ natCharsAux fuel n → ∃ d, d < 10 ∧ c = Nat.digitChar d := by
  intro fuel
  induction fuel with
  | zero => intro n h; simp [natCharsAux] at h
  | succ f ih =>
    intro n h
    simp only [natCharsAux] at h
    by_cases hn : n = 0
    · rw [if_pos hn] at h; simp at h
    · rw [if_neg hn] at h
      rcases List.mem_cons.1 h with h1 | h2
      · exact ⟨n % 10, Nat.mod_lt n (by norm_num), h1⟩
      · exact ih _ h2

theorem underscore_not_mem_natChars (n : Nat) : '_' ∉ natChars n := by
  unfold natChars
  by_cases hn : n = 0
  · rw [if_pos hn]; decide
  · rw [if_neg hn]
    intro h
    obtain ⟨d, hd, hc⟩ := mem_natCharsAux n n (List.mem_reverse.1 h)
    exact digitChar_lt_ten_ne_underscore d hd hc.symm

theorem natCharsAux_eq_digits :
    ∀ (fuel n : Nat), n ≤ fuel → natCharsAux fuel n = (Nat.digits 10 n).map Nat.digitChar := by
  intro fuel
  induction fuel with
  | zero =>
    intro n hn
    interval_cases n
    simp [natCharsAux]
  | succ f ih =>
    intro n hn
    by_cases h0 : n = 0
    · subst h0; simp [natCharsAux]
    · rw [Nat.digits_def' (by norm_num : (1:Nat) < 10) (Nat.pos_of_ne_zero h0)]
      simp only [natCharsAux, if_neg h0, List.map_cons]
      refine congrArg _ (ih (n / 10) ?_)
      have : n / 10 < n := Nat.div_lt_self (Nat.pos_of_ne_zero h0) (by norm_num)
      omega

theorem map_digitChar_inj :
    ∀ (l1 l2 : List Nat), (∀ d ∈ l1, d < 10) → (∀ d ∈ l2, d < 10) →
      l1.map Nat.digitChar = l2.map Nat.digitChar → l1 = l2 := by
  intro l1
  induction l1 with
  | nil => intro l2 _ _ h; cases l2 <;> simp_all
  | cons a r ih =>
    intro l2 h1 h2 h
    cases l2 with
    | nil => simp at h
    | cons b r2 =>
      simp only [List.map_cons, List.cons.injEq] at h
      have ha : a = b :=
        digitChar_lt_ten_inj a (h1 a (by simp)) b (h2 b (by simp)) h.1
      have hr : r = r2 :=
        ih r2 (fun d hd => h1 d (by simp [hd])) (fun d hd => h2 d (by simp [hd])) h.2
      rw [ha, hr]

theorem natChars_inj (a b : Nat) (h : natChars a = natChars b) : a = b := by
  unfold natChars at h
  by_cases ha : a = 0 <;> by_cases hb : b = 0
  · rw [ha, hb]
  · exfalso
    rw [if_pos ha, if_neg hb, natCharsAux_eq_digits b b le_rfl] at h
    have hd : (Nat.digits 10 b).map Nat.digitChar = ['0'] := by
      have := congrArg List.reverse h
      simpa using this.symm
    have : Nat.digits 10 b = [0] := by
      refine map_digitChar_inj _ [0] ?_ (by norm_num) ?_
      · intro d hd2; exact Nat.digits_lt_base (by norm_num) hd2
      · rw [hd]; rfl
    have hb0 : b = 0 := by
      have := Nat.ofDigits_digits 10 b
      rw [this.symm, ‹Nat.digits 10 b = [0]›]
      simp [Nat.ofDigits]
    exact hb hb0
  · exfalso
    rw [if_neg ha, if_pos hb, natCharsAux_eq_digits a a le_rfl] at h
    have hd : (Nat.digits 10 a).map Nat.digitChar = ['0'] := by
      have := congrArg List.reverse h
      simpa using this
    have : Nat.digits 10 a = [0] := by
      refine map_digitChar_inj _ [0] ?_ (by norm_num) ?_
      · intro d hd2; exact Nat.digits_lt_base (by norm_num) hd2
      · rw [hd]; rfl
    have ha0 : a = 0 := by
      have := Nat.ofDigits_digits 10 a
      rw [this.symm, ‹Nat.digits 10 a = [0]›]
      simp [Nat.ofDigits]
    exact ha ha0
  · rw [if_neg ha, if_neg hb, natCharsAux_eq_digits a a le_rfl,
        natCharsAux_eq_digits b b le_rfl] at h
    have hrev := congrArg List.reverse h
    simp only [List.reverse_reverse] at hrev
    have hdig : Nat.digits 10 a = Nat.digits 10 b := by
      refine map_digitChar_inj _ _ ?_ ?_ hrev
      · intro d hd2; exact Nat.digits_lt_base (by norm_num) hd2
      · intro d hd2; exact Nat.digits_lt_base (by norm_num) hd2
    have := Nat.ofDigits_digits 10 a
    rw [hdig] at this
    rw [← this, Nat.ofDigits_digits]

theorem append_underscore_inj :
    ∀ (a : List Char) (b : List Char) (x y : List Char), '_' ∉ a → '_' ∉ b →
      a ++ '_' :: x = b ++ '_' :: y → a = b ∧ x = y := by
  intro a
  induction a with
  | nil =>
    intro b x y _ hb h
    cases b with
    | nil => simpa using h
    | cons c b2 =>
      exfalso
      simp only [List.nil_append, List.cons_append, List.cons.injEq] at h
      exact hb (h.1 ▸ List.mem_cons_self c b2)
  | cons c a2 ih =>
    intro b x y ha hb h
    cases b with
    | nil =>
      exfalso
      simp only [List.cons_append, List.nil_append, List.cons.injEq] at h
      exact ha (h.1.symm ▸ List.mem_cons_self c a2)
    | cons c2 b2 =>
      simp only [List.cons_append, List.cons.injEq] at h
      obtain ⟨h1, h2⟩ :=
        ih b2 x y (fun m => ha (List.mem_cons_of_mem c m)) (fun m => hb (List.mem_cons_of_mem c2 m)) h.2
      exact ⟨by rw [h.1, h1], h2⟩

theorem sigEdges_inj : ∀ (es1 es2 : List (Char × Nat)), sigEdges es1 = sigEdges es2 → es1 = es2 := by
  intro es1
  induction es1 with
  | nil =>
    intro es2 h
    cases es2 with
    | nil => rfl
    | cons e r => exact absurd h (by cases e; simp [sigEdges])
  | cons e r ih =>
    intro es2 h
    cases es2 with
    | nil => exact absurd h (by cases e; simp [sigEdges])
    | cons e2 r2 =>
      obtain ⟨l1, t1⟩ := e
      obtain ⟨l2, t2⟩ := e2
      simp only [sigEdges, List.cons.injEq] at h
      obtain ⟨hn, htail⟩ :=
        append_underscore_inj _ _ _ _ (underscore_not_mem_natChars t1)
          (underscore_not_mem_natChars t2) h.2
      have ht : t1 = t2 := natChars_inj _ _ hn
      simp only [List.cons.injEq] at htail
      have hr : r = r2 := ih r2 htail.2
      rw [ht, hr, htail.1]

theorem sigNode_inj_iff (nd1 nd2 : NodeData) :
    sigNode nd1 = sigNode nd2 ↔ (nd1.terminal = nd2.terminal ∧ nd1.edges = nd2.edges) := by
  constructor
  · intro h
    simp only [sigNode, List.cons.injEq] at h
    refine ⟨?_, sigEdges_inj _ _ h.2⟩
    rcases h with ⟨h1, _⟩
    cases ht1 : nd1.terminal <;> cases ht2 : nd2.terminal <;>
      simp [ht1, ht2] at h1 ⊢
  · intro ⟨h1, h2⟩
    simp [sigNode, h1, h2]

/-- Claim C6 (amended): the signature is deterministic in the map's
iteration ORDER, not in the mapping: two nodes have identical signature
strings exactly when they have the same terminal flag and the same
SEQUENCE of (label, child-id) edges; since labels are not sorted before
concatenation, reordering the mapping can change the signature (see the
counterexample). -/
theorem claim_C6_amended (nd1 nd2 : NodeData) :
    sigNode nd1 = sigNode nd2 ↔ (nd1.terminal = nd2.terminal ∧ nd1.edges = nd2.edges) :=
  sigNode_inj_iff nd1 nd2

/-! ## The minimize loop under small frontiers (C4 and C10 amended) -/

theorem wrap8_eq_self (x : Int) (h1 : -128 ≤ x) (h2 : x ≤ 127) : wrap8 x = x := by
  unfold wrap8
  omega

theorem i8Sub1_toI8 (n : Nat) (h : n ≤ 128) : i8Sub1 (toI8 n) = (n : Int) - 1 := by
  have h256 : n % 256 = n := Nat.mod_eq_of_lt (by omega)
  simp only [i8Sub1, wrap8, toI8, h256]
  by_cases h128 : n < 128
  · rw [if_pos h128]
    omega
  · rw [if_neg h128]
    have hn : n = 128 := by omega
    subst hn
    decide

theorem minimizeStep_unchecked (d : Dawg) (i : Nat) (h : i < d.unchecked.length) :
    (minimizeStep d i).unchecked = d.unchecked.dropLast := by
  unfold minimizeStep
  obtain ⟨e, he⟩ : ∃ e, d.unchecked.get? i = some e := ⟨_, List.get?_eq_get h⟩
  rw [he]
  obtain ⟨p, l, c⟩ := e
  cases hs : lookupSig d.minimized (sigChars d.store c) <;> simp [hs]

theorem minimizeLoop_eq_iterateMin :
    ∀ (k : Nat) (d : Dawg) (fuel : Nat), k ≤ d.unchecked.length → d.unchecked.length ≤ 128 →
      k < fuel →
      minimizeLoop d ((d.unchecked.length : Int) - 1) ((d.unchecked.length : Int) - 1 - k) fuel
        = some (iterateMin d k) := by
  intro k
  induction k with
  | zero =>
    intro d fuel h1 h2 h3
    cases fuel with
    | zero => omega
    | succ f =>
      simp only [minimizeLoop]
      rw [if_neg (by omega)]
      rfl
  | succ k ih =>
    intro d fuel h1 h2 h3
    cases fuel with
    | zero => omega
    | succ f =>
      have hlen : 1 ≤ d.unchecked.length := by omega
      simp only [minimizeLoop]
      rw [if_pos (by omega)]
      have htu : toUsize ((d.unchecked.length : Int) - 1) = d.unchecked.length - 1 := by
        unfold toUsize
        have hm : ((d.unchecked.length : Int) - 1) % 2 ^ 64 = (d.unchecked.length : Int) - 1 := by
          omega
        rw [hm]
        omega
      rw [htu, if_pos (by omega)]
      have hstep : (minimizeStep d (d.unchecked.length - 1)).unchecked.length
          = d.unchecked.length - 1 := by
        rw [minimizeStep_unchecked d _ (by omega), List.length_dropLast]
      have hsub : i8Sub1 ((d.unchecked.length : Int) - 1) = (d.unchecked.length : Int) - 2 := by
        unfold i8Sub1
        rw [show (d.unchecked.length : Int) - 1 - 1 = (d.unchecked.length : Int) - 2 from by ring]
        exact wrap8_eq_self _ (by omega) (by omega)
      rw [hsub]
      have := ih (minimizeStep d (d.unchecked.length - 1)) f
        (by rw [hstep]; omega) (by rw [hstep]; omega) (by omega)
      rw [hstep] at this
      rw [show ((d.unchecked.length - 1 : Nat) : Int) = (d.unchecked.length : Int) - 1 from by omega] at this
      rw [show (d.unchecked.length : Int) - 1 - 1 = (d.unchecked.length : Int) - 2 from by ring] at this
      rw [show (d.unchecked.length : Int) - 1 - ((k : Nat) + 1 : Nat) = (d.unchecked.length : Int) - 2 - k from by push_cast; ring]
      rw [show iterateMin d (k + 1) = iterateMin (minimizeStep d (d.unchecked.length - 1)) k from rfl]
      exact this

theorem minimize_eq_iterateMin (d : Dawg) (downTo : Nat)
    (hlen : d.unchecked.length ≤ 128) (hd : downTo ≤ d.unchecked.length) :
    minimize d downTo = some (iterateMin d (d.unchecked.length - downTo)) := by
  unfold minimize
  rw [i8Sub1_toI8 _ hlen, i8Sub1_toI8 _ (le_trans hd hlen)]
  rw [show (downTo : Int) - 1
      = (d.unchecked.length : Int) - 1 - ((d.unchecked.length - downTo : Nat) : Int) from by omega]
  exact minimizeLoop_eq_iterateMin (d.unchecked.length - downTo) d 256 (by omega) hlen (by omega)

theorem iterateMin_unchecked :
    ∀ (k : Nat) (d : Dawg), k ≤ d.unchecked.length →
      (iterateMin d k).unchecked = d.unchecked.take (d.unchecked.length - k) := by
  intro k
  induction k with
  | zero =>
    intro d h
    simp [iterateMin, List.take_length]
  | succ k ih =>
    intro d h
    simp only [iterateMin]
    rw [ih _ (by rw [minimizeStep_unchecked _ _ (by omega), List.length_dropLast]; omega)]
    rw [minimizeStep_unchecked _ _ (by omega), List.length_dropLast,
        List.dropLast_eq_take, List.take_take]
    congr 1
    omega

/-- Claim C4 (amended): PROVIDED the unchecked frontier holds at most 128
entries, `minimize(down_to)` with `down_to` at most the frontier length
performs exactly the plain tail-to-head loop (`iterateMin`, popping the
deepest entry first, once per entry of depth strictly greater than
`down_to`) and leaves exactly the first `down_to` frontier entries; at
129 entries or more the i8 casts break this (see the counterexample). -/
theorem claim_C4_amended (d : Dawg) (downTo : Nat)
    (hlen : d.unchecked.length ≤ 128) (hd : downTo ≤ d.unchecked.length) :
    minimize d downTo = some (iterateMin d (d.unchecked.length - downTo))
    ∧ (iterateMin d (d.unchecked.length - downTo)).unchecked = d.unchecked.take downTo := by
  refine ⟨minimize_eq_iterateMin d downTo hlen hd, ?_⟩
  rw [iterateMin_unchecked _ _ (by omega)]
  congr 1
  omega

/-- Witness for C4: the amended statement applied to the concrete
two-entry frontier of `add("ab")` with `down_to = 1`. -/
theorem claim_C4_witness :
    (dawgAB.unchecked.length ≤ 128 ∧ 1 ≤ dawgAB.unchecked.length)
    ∧ minimize dawgAB 1 = some (iterateMin dawgAB (dawgAB.unchecked.length - 1))
    ∧ (iterateMin dawgAB (dawgAB.unchecked.length - 1)).unchecked = dawgAB.unchecked.take 1 :=
  ⟨⟨by decide, by decide⟩, claim_C4_amended dawgAB 1 (by decide) (by decide)⟩

/-- Claim C10 (amended): the i8 cast of the frontier length is
value-preserving exactly when the frontier holds at most 127 entries, but
the procedure still pops the intended entries (the plain tail-to-head
loop down to `down_to`) whenever the frontier holds at most 128 entries —
at exactly 128 the two wraps cancel (`128 as i8 = -128` and `-128 - 1`
wraps to `127`); from 129 entries on the loop bound is wrong (see C4's
129-entry behaviour). -/
theorem claim_C10_amended :
    (∀ n : Nat, toI8 n = (n : Int) ↔ n ≤ 127)
    ∧ (∀ (d : Dawg) (downTo : Nat), d.unchecked.length ≤ 128 → downTo ≤ d.unchecked.length →
        minimize d downTo = some (iterateMin d (d.unchecked.length - downTo))) := by
  constructor
  · intro n
    unfold toI8
    constructor
    · intro h
      by_cases h128 : n % 256 < 128
      · rw [if_pos h128] at h
        omega
      · rw [if_neg h128] at h
        omega
    · intro h
      have : n % 256 = n := Nat.mod_eq_of_lt (by omega)
      rw [this, if_pos (by omega)]
      omega
  · intro d downTo hlen hd
    exact minimize_eq_iterateMin d downTo hlen hd

/-- Witness for C10: both conjuncts instantiated — the cast preserves 5,
and `minimize` on the concrete two-entry frontier pops down to 0. -/
theorem claim_C10_witness :
    toI8 5 = (5 : Int)
    ∧ minimize dawgAB 0 = some (iterateMin dawgAB (dawgAB.unchecked.length - 0)) :=
  ⟨(claim_C10_amended.1 5).mpr (by decide),
   claim_C10_amended.2 dawgAB 0 (by decide) (by decide)⟩

/-! ## Characterization of the find loop (C9 amended, C8 infrastructure) -/

theorem byteSize_pos (c : Char) : 1 ≤ byteSize c := by
  unfold byteSize
  split_ifs <;> omega

theorem byteSize_eq_one_iff (c : Char) : byteSize c = 1 ↔ c.toNat < 128 := by
  unfold byteSize
  split_ifs with h1 h2 h3 <;> omega

theorem byteLen_cons (c : Char) (r : List Char) :
    byteLen (c :: r) = byteSize c + byteLen r := by
  simp [byteLen]

theorem length_le_byteLen (w : List Char) : w.length ≤ byteLen w := by
  induction w with
  | nil => simp [byteLen]
  | cons c r ih =>
    have h1 := byteSize_pos c
    rw [byteLen_cons, List.length_cons]
    omega

theorem byteLen_eq_length_iff (w : List Char) :
    byteLen w = w.length ↔ ∀ c ∈ w, c.toNat < 128 := by
  induction w with
  | nil => simp [byteLen]
  | cons c r ih =>
    have h1 := byteSize_pos c
    have h2 := length_le_byteLen r
    rw [byteLen_cons, List.length_cons]
    constructor
    · intro h
      have hc : byteSize c = 1 := by omega
      have hr : byteLen r = r.length := by omega
      intro x hx
      rcases List.mem_cons.1 hx with hx | hx
      · exact hx ▸ (byteSize_eq_one_iff c).1 hc
      · exact ih.1 hr x hx
    · intro h
      have hc : byteSize c = 1 := (byteSize_eq_one_iff c).2 (h c (List.mem_cons_self c r))
      have hr : byteLen r = r.length := ih.2 (fun x hx => h x (List.mem_cons_of_mem c hx))
      omega

theorem findAux_spec (σ : Store) (cs : List Char) (cse : Bool) :
    ∀ (n i node : Nat), i ≤ cs.length → n = cs.length - i →
      findAux σ cs cse node i (byteLen cs - i) =
        (match walkG σ cse node (cs.drop i) with
         | none => some none
         | some m => if byteLen cs = cs.length then some (some m) else none) := by
  intro n
  induction n with
  | zero =>
    intro i node hi hn
    have hieq : i = cs.length := by omega
    subst hieq
    rw [List.drop_length]
    simp only [walkG]
    rcases Nat.lt_or_ge (byteLen cs - cs.length) 1 with h | h
    · have hbe : byteLen cs = cs.length := by
        have := length_le_byteLen cs
        omega
      rw [show byteLen cs - cs.length = 0 from by omega]
      simp [findAux, hbe]
    · obtain ⟨k, hk⟩ : ∃ k, byteLen cs - cs.length = k + 1 :=
        ⟨byteLen cs - cs.length - 1, by omega⟩
      rw [hk]
      have hne : byteLen cs ≠ cs.length := by omega
      simp [findAux, hne]
  | succ n ih =>
    intro i node hi hn
    have hilt : i < cs.length := by omega
    have hfuel : byteLen cs - i = (byteLen cs - (i + 1)) + 1 := by
      have := length_le_byteLen cs
      omega
    rw [hfuel]
    have hdrop : cs.drop i = cs.get ⟨i, hilt⟩ :: cs.drop (i + 1) := by
      rw [List.get_eq_getElem]
      exact List.drop_eq_getElem_cons hilt
    rw [hdrop]
    simp only [findAux, dif_pos hilt, walkG]
    cases cse
    · rw [if_neg Bool.false_ne_true]
      cases hci : findCI (getNode σ node).edges (asciiUpper (cs.get ⟨i, hilt⟩)) with
      | none => rfl
      | some t => exact ih (i + 1) t (by omega) (by omega)
    · rw [if_pos rfl]
      cases hle : lookupEdge (getNode σ node).edges (cs.get ⟨i, hilt⟩) with
      | none => rfl
      | some t => exact ih (i + 1) t (by omega) (by omega)

theorem find_spec (d : Dawg) (w : List Char) (cse : Bool) :
    find d w cse =
      (match walkG d.store cse d.root w with
       | none => some none
       | some m => if byteLen w = w.length then some (some m) else none) := by
  have := findAux_spec d.store w cse (w.length - 0) 0 d.root (by omega) rfl
  rw [Nat.sub_zero] at this
  rw [List.drop_zero] at this
  exact this

/-- Claim C9 (amended): `find` (hence `is_word` and `lookup`) panics with
an out-of-bounds index exactly when the traversal consumes ALL of the
word's characters AND the word's UTF-8 byte length exceeds its character
count; pure-ASCII queries (byte length = character count) are always
safe, and a word containing a multi-byte character that fails to match a
transition earlier returns `None` without any out-of-bounds access. -/
theorem claim_C9_amended (d : Dawg) (w : List Char) (cse : Bool) :
    (find d w cse = none ↔ ((walkG d.store cse d.root w).isSome ∧ byteLen w ≠ w.length))
    ∧ (byteLen w = w.length → find d w cse ≠ none)
    ∧ (isWord d w cse = none ↔ find d w cse = none)
    ∧ (lookup d w cse = none ↔ find d w cse = none)
    ∧ (byteLen w = w.length ↔ ∀ c ∈ w, c.toNat < 128) := by
  have hspec := find_spec d w cse
  have hmain : find d w cse = none ↔
      ((walkG d.store cse d.root w).isSome ∧ byteLen w ≠ w.length) := by
    rw [hspec]
    cases htr : walkG d.store cse d.root w with
    | none => simp
    | some m =>
      by_cases hb : byteLen w = w.length
      · simp [hb]
      · simp [hb]
  refine ⟨hmain, ?_, ?_, ?_, byteLen_eq_length_iff w⟩
  · intro hb hcon
    exact ((hmain.1 hcon).2) hb
  · unfold isWord
    cases hfd : find d w cse with
    | none => simp
    | some o => cases o <;> simp
  · unfold lookup
    cases hfd : find d w cse with
    | none => simp
    | some o => cases o <;> simp

/-- Witness for C9: the amended statement applied to the all-ASCII query
"a" on a concrete builder — the query cannot panic. -/
theorem claim_C9_witness :
    byteLen ['a'] = (['a'] : List Char).length ∧ find dawgAB ['a'] true ≠ none :=
  ⟨by decide, (claim_C9_amended dawgAB ['a'] true).2.1 (by decide)⟩

/-! ## Case-insensitive traversal without label collisions (C8 amended) -/

theorem lookupEdge_mem (es : List (Char × Nat)) (c : Char) (t : Nat)
    (h : lookupEdge es c = some t) : (c, t) ∈ es := by
  induction es with
  | nil => simp [lookupEdge] at h
  | cons e r ih =>
    obtain ⟨l, u⟩ := e
    by_cases hc : c = l
    · subst hc
      rw [lookupEdge, if_pos rfl] at h
      simp only [Option.some.injEq] at h
      rw [h] at *
      exact List.mem_cons_self _ _
    · rw [lookupEdge, if_neg hc] at h
      exact List.mem_cons_of_mem _ (ih h)

theorem findCI_of_lookupEdge (es : List (Char × Nat))
    (hnd : (es.map (fun e => asciiUpper e.1)).Nodup)
    (c ql : Char) (t : Nat) (hup : asciiUpper ql = asciiUpper c)
    (h : lookupEdge es c = some t) : findCI es (asciiUpper ql) = some t := by
  induction es with
  | nil => simp [lookupEdge] at h
  | cons e r ih =>
    obtain ⟨l, u⟩ := e
    simp only [List.map_cons, List.nodup_cons] at hnd
    by_cases hc : c = l
    · subst hc
      rw [lookupEdge, if_pos rfl] at h
      simp only [Option.some.injEq] at h
      rw [findCI, if_pos (by rw [hup]), h]
    · rw [lookupEdge, if_neg hc] at h
      have hmem : (c, t) ∈ r := lookupEdge_mem r c t h
      have hne : asciiUpper l ≠ asciiUpper ql := by
        intro he
        apply hnd.1
        rw [he, hup]
        exact List.mem_map.2 ⟨(c, t), hmem, rfl⟩
      rw [findCI, if_neg hne]
      exact ih hnd.2 h

theorem getNode_nodup_upper (σ : Store) (h : noCaseCollision σ) (i : Nat) :
    ((getNode σ i).edges.map (fun e => asciiUpper e.1)).Nodup := by
  induction σ with
  | nil => simp [getNode, defaultNode]
  | cons p rest ih =>
    obtain ⟨j, nd⟩ := p
    rw [getNode]
    by_cases hij : i = j
    · rw [if_pos hij]
      exact h (j, nd) (List.mem_cons_self _ _)
    · rw [if_neg hij]
      exact ih (fun q hq => h q (List.mem_cons_of_mem _ hq))

theorem walkG_ci_of_cs (σ : Store) (h : noCaseCollision σ) :
    ∀ (w2 w : List Char) (node n : Nat), w.map asciiUpper = w2.map asciiUpper →
      walkG σ true node w2 = some n → walkG σ false node w = some n := by
  intro w2
  induction w2 with
  | nil =>
    intro w node n hmap ht
    cases w with
    | nil => exact ht
    | cons c r => simp at hmap
  | cons c2 r2 ih =>
    intro w node n hmap ht
    cases w with
    | nil => simp at hmap
    | cons c r =>
      simp only [List.map_cons, List.cons.injEq] at hmap
      simp only [walkG, if_pos rfl] at ht
      cases hle : lookupEdge (getNode σ node).edges c2 with
      | none => rw [hle] at ht; exact absurd ht (by simp)
      | some t =>
        rw [hle] at ht
        have hci : findCI (getNode σ node).edges (asciiUpper c) = some t :=
          findCI_of_lookupEdge _ (getNode_nodup_upper σ h node) c2 c t hmap.1 hle
        simp only [walkG, if_neg Bool.false_ne_true, hci]
        exact ih r t n hmap.2 ht

theorem isWordHit_spec (d : Dawg) (w : List Char) (cse : Bool) (hb : byteLen w = w.length) :
    isWordHit d w cse =
      (match walkG d.store cse d.root w with
       | some n => (getNode d.store n).terminal
       | none => false) := by
  unfold isWordHit isWord
  rw [find_spec]
  cases htr : walkG d.store cse d.root w with
  | none => simp
  | some n =>
    by_cases hterm : (getNode d.store n).terminal <;> simp [hb, hterm]

theorem isWordHit_ci_of_cs (d : Dawg) (h : noCaseCollision d.store)
    (w2 w : List Char) (hmap : w.map asciiUpper = w2.map asciiUpper)
    (hascii : byteLen w = w.length)
    (hhit : isWordHit d w2 true = true) : isWordHit d w false = true := by
  by_cases hb2 : byteLen w2 = w2.length
  · rw [isWordHit_spec d w2 true hb2] at hhit
    rw [isWordHit_spec d w false hascii]
    cases htr : walkG d.store true d.root w2 with
    | none =>
      rw [htr] at hhit
      exact absurd hhit (by simp)
    | some n =>
      rw [htr] at hhit
      rw [walkG_ci_of_cs d.store h w2 w d.root n hmap htr]
      exact hhit
  · exfalso
    unfold isWordHit isWord at hhit
    rw [find_spec] at hhit
    cases htr : walkG d.store true d.root w2 with
    | none =>
      rw [htr] at hhit
      simp at hhit
    | some n =>
      rw [htr] at hhit
      simp [hb2] at hhit

/-- Claim C8 (amended): PROVIDED no node of the automaton carries two
distinct labels that coincide after uppercasing, the case-insensitive
query for "CAT" succeeds whenever the case-sensitive query for "cat"
does, and the case-insensitive query for "cat" succeeds whenever the
case-sensitive query for "CAT" does.  Without the proviso the traversal
follows the FIRST uppercase-matching edge in map-iteration order and the
implication fails (see the counterexample). -/
theorem claim_C8_amended (d : Dawg) (h : noCaseCollision d.store) :
    (isWordHit d ['c', 'a', 't'] true = true → isWordHit d ['C', 'A', 'T'] false = true)
    ∧ (isWordHit d ['C', 'A', 'T'] true = true → isWordHit d ['c', 'a', 't'] false = true) :=
  ⟨fun hh => isWordHit_ci_of_cs d h ['c', 'a', 't'] ['C', 'A', 'T'] (by decide) (by decide) hh,
   fun hh => isWordHit_ci_of_cs d h ['C', 'A', 'T'] ['c', 'a', 't'] (by decide) (by decide) hh⟩

/-- Witness for C8: on the concrete collision-free "cat" automaton, the
case-sensitive hit on "cat" forces the case-insensitive hit on "CAT". -/
theorem claim_C8_witness : isWordHit dawgCat ['C', 'A', 'T'] false = true :=
  (claim_C8_amended dawgCat (by unfold noCaseCollision; decide)).1 (by decide)

/-! ## Association-list and edge-map helper lemmas -/

theorem lookupSig_mem (mz : List (List Char × Nat)) (k : List Char) (m : Nat)
    (h : lookupSig mz k = some m) : (k, m) ∈ mz := by
  induction mz with
  | nil => simp [lookupSig] at h
  | cons e r ih =>
    obtain ⟨s, n⟩ := e
    by_cases hk : k = s
    · subst hk
      rw [lookupSig, if_pos rfl] at h
      injection h with h
      subst h
      exact List.mem_cons_self _ _
    · rw [lookupSig, if_neg hk] at h
      exact List.mem_cons_of_mem _ (ih h)

theorem mem_insertEdge (es : List (Char × Nat)) (c : Char) (t : Nat) :
    ∀ e ∈ insertEdge es c t, e = (c, t) ∨ e ∈ es := by
  induction es with
  | nil =>
    intro e he
    simp [insertEdge] at he
    left
    simpa using he
  | cons f r ih =>
    obtain ⟨l, u⟩ := f
    intro e he
    by_cases hc : c = l
    · subst hc
      rw [insertEdge, if_pos rfl] at he
      rcases List.mem_cons.1 he with h | h
      · left; exact h
      · right; exact List.mem_cons_of_mem _ h
    · rw [insertEdge, if_neg hc] at he
      rcases List.mem_cons.1 he with h | h
      · right; exact h ▸ List.mem_cons_self _ _
      · rcases ih e h with h2 | h2
        · left; exact h2
        · right; exact List.mem_cons_of_mem _ h2

theorem lookupEdge_insertEdge_self (es : List (Char × Nat)) (c : Char) (t : Nat) :
    lookupEdge (insertEdge es c t) c = some t := by
  induction es with
  | nil => simp [insertEdge, lookupEdge]
  | cons f r ih =>
    obtain ⟨l, u⟩ := f
    by_cases hc : c = l
    · subst hc
      rw [insertEdge, if_pos rfl, lookupEdge, if_pos rfl]
    · rw [insertEdge, if_neg hc, lookupEdge, if_neg hc]
      exact ih

theorem lookupEdge_insertEdge_other (es : List (Char × Nat)) (c : Char) (t : Nat)
    (c' : Char) (h : c' ≠ c) :
    lookupEdge (insertEdge es c t) c' = lookupEdge es c' := by
  induction es with
  | nil => simp [insertEdge, lookupEdge, h]
  | cons f r ih =>
    obtain ⟨l, u⟩ := f
    by_cases hc : c = l
    · subst hc
      rw [insertEdge, if_pos rfl, lookupEdge, if_neg h, lookupEdge, if_neg h]
    · rw [insertEdge, if_neg hc, lookupEdge, lookupEdge]
      by_cases hcl : c' = l
      · rw [if_pos hcl, if_pos hcl]
      · rw [if_neg hcl, if_neg hcl]
        exact ih

theorem insertEdge_map_fst_of_mem (es : List (Char × Nat)) (c : Char) (t : Nat)
    (h : c ∈ es.map Prod.fst) :
    (insertEdge es c t).map Prod.fst = es.map Prod.fst := by
  induction es with
  | nil => simp at h
  | cons f r ih =>
    obtain ⟨l, u⟩ := f
    by_cases hc : c = l
    · subst hc
      rw [insertEdge, if_pos rfl]
      simp
    · rw [insertEdge, if_neg hc]
      simp only [List.map_cons, List.mem_cons] at h
      rcases h with h | h
      · exact absurd h hc
      · simp only [List.map_cons]
        rw [ih h]

theorem insertEdge_of_not_mem (es : List (Char × Nat)) (c : Char) (t : Nat)
    (h : c ∉ es.map Prod.fst) :
    insertEdge es c t = es ++ [(c, t)] := by
  induction es with
  | nil => simp [insertEdge]
  | cons f r ih =>
    obtain ⟨l, u⟩ := f
    simp only [List.map_cons, List.mem_cons] at h
    push_neg at h
    rw [insertEdge, if_neg h.1]
    simp only [List.cons_append, List.cons.injEq, true_and]
    exact ih h.2

theorem lookupEdge_none_iff (es : List (Char × Nat)) (c : Char) :
    lookupEdge es c = none ↔ c ∉ es.map Prod.fst := by
  induction es with
  | nil => simp [lookupEdge]
  | cons f r ih =>
    obtain ⟨l, u⟩ := f
    by_cases hc : c = l
    · subst hc
      simp [lookupEdge]
    · rw [lookupEdge, if_neg hc]
      simp [hc, ih]

theorem setNode_map_fst (σ : Store) (i : Nat) (nd : NodeData)
    (h : i ∈ σ.map Prod.fst) :
    (setNode σ i nd).map Prod.fst = σ.map Prod.fst := by
  induction σ with
  | nil => simp at h
  | cons p rest ih =>
    obtain ⟨j, m⟩ := p
    by_cases hij : i = j
    · subst hij
      rw [setNode, if_pos rfl]
      simp
    · rw [setNode, if_neg hij]
      simp only [List.map_cons, List.mem_cons] at h
      rcases h with h | h
      · exact absurd h hij
      · simp only [List.map_cons]
        rw [ih h]

theorem getNode_not_mem (σ : Store) (i : Nat) (h : i ∉ σ.map Prod.fst) :
    getNode σ i = defaultNode := by
  induction σ with
  | nil => rfl
  | cons p rest ih =>
    obtain ⟨j, m⟩ := p
    simp only [List.map_cons, List.mem_cons] at h
    push_neg at h
    rw [getNode, if_neg h.1]
    exact ih h.2

theorem getNode_append_of_mem (σ τ : Store) (i : Nat) (h : i ∈ σ.map Prod.fst) :
    getNode (σ ++ τ) i = getNode σ i := by
  induction σ with
  | nil => simp at h
  | cons p rest ih =>
    obtain ⟨j, m⟩ := p
    by_cases hij : i = j
    · subst hij
      rw [List.cons_append, getNode, if_pos rfl, getNode, if_pos rfl]
    · rw [List.cons_append, getNode, if_neg hij, getNode, if_neg hij]
      simp only [List.map_cons, List.mem_cons] at h
      rcases h with h | h
      · exact absurd h hij
      · exact ih h

theorem getNode_append_of_not_mem (σ τ : Store) (i : Nat) (h : i ∉ σ.map Prod.fst) :
    getNode (σ ++ τ) i = getNode τ i := by
  induction σ with
  | nil => rfl
  | cons p rest ih =>
    obtain ⟨j, m⟩ := p
    simp only [List.map_cons, List.mem_cons] at h
    push_neg at h
    rw [List.cons_append, getNode, if_neg h.1]
    exact ih h.2

/-! ## Lexicographic-order and common-prefix lemmas -/

theorem listLt_asymm : ∀ (a b : List Char), listLt a b = true → listLt b a = false := by
  intro a
  induction a with
  | nil =>
    intro b h
    cases b with
    | nil => simp [listLt] at h
    | cons y bs => simp [listLt]
  | cons x as ih =>
    intro b h
    cases b with
    | nil => simp [listLt] at h
    | cons y bs =>
      rw [listLt] at h
      rw [listLt]
      by_cases h1 : x < y
      · rw [if_neg (lt_asymm h1), if_pos h1]
      · rw [if_neg h1] at h
        by_cases h2 : y < x
        · rw [if_pos h2] at h
          exact absurd h (by simp)
        · rw [if_neg h2] at h
          rw [if_neg h2, if_neg h1]
          exact ih bs h

theorem listLt_nil_of_ne (b : List Char) (h : b ≠ []) : listLt [] b = true := by
  cases b with
  | nil => exact absurd rfl h
  | cons y bs => rfl

theorem commonPrefixLen_le_left : ∀ (a b : List Char), commonPrefixLen a b ≤ a.length := by
  intro a
  induction a with
  | nil => intro b; cases b <;> simp [commonPrefixLen]
  | cons x as ih =>
    intro b
    cases b with
    | nil => simp [commonPrefixLen]
    | cons y bs =>
      rw [commonPrefixLen]
      by_cases h : x = y
      · rw [if_pos h]
        simp only [List.length_cons]
        exact Nat.succ_le_succ (ih bs)
      · rw [if_neg h]
        simp

theorem commonPrefixLen_le_right : ∀ (a b : List Char), commonPrefixLen a b ≤ b.length := by
  intro a
  induction a with
  | nil => intro b; cases b <;> simp [commonPrefixLen]
  | cons x as ih =>
    intro b
    cases b with
    | nil => simp [commonPrefixLen]
    | cons y bs =>
      rw [commonPrefixLen]
      by_cases h : x = y
      · rw [if_pos h]
        simp only [List.length_cons]
        exact Nat.succ_le_succ (ih bs)
      · rw [if_neg h]
        simp

theorem commonPrefixLen_take : ∀ (a b : List Char),
    a.take (commonPrefixLen a b) = b.take (commonPrefixLen a b) := by
  intro a
  induction a with
  | nil => intro b; cases b <;> simp [commonPrefixLen]
  | cons x as ih =>
    intro b
    cases b with
    | nil => simp [commonPrefixLen]
    | cons y bs =>
      rw [commonPrefixLen]
      by_cases h : x = y
      · rw [if_pos h]
        simp only [List.take_succ_cons]
        rw [h, ih bs]
      · rw [if_neg h]
        simp

theorem listLt_cp_lt : ∀ (b a : List Char), listLt a b = true →
    commonPrefixLen b a < b.length := by
  intro b
  induction b with
  | nil =>
    intro a h
    cases a with
    | nil => simp [listLt] at h
    | cons x as => simp [listLt] at h
  | cons y bs ih =>
    intro a h
    cases a with
    | nil => simp [commonPrefixLen]
    | cons x as =>
      rw [listLt] at h
      rw [commonPrefixLen]
      by_cases hxy : x < y
      · rw [if_neg (fun he : y = x => absurd (he ▸ hxy) (lt_irrefl x))]
        simp
      · rw [if_neg hxy] at h
        by_cases hyx : y < x
        · rw [if_pos hyx] at h
          exact absurd h (by simp)
        · rw [if_neg hyx] at h
          have hxy2 : y = x := le_antisymm (not_lt.1 hxy) (not_lt.1 hyx)
          rw [if_pos hxy2]
          simp only [List.length_cons]
          exact Nat.succ_lt_succ (ih as h)

theorem listLt_get_cp : ∀ (b a : List Char), listLt a b = true →
    ∀ (ca cb : Char), a.get? (commonPrefixLen b a) = some ca →
      b.get? (commonPrefixLen b a) = some cb → ca < cb := by
  intro b
  induction b with
  | nil =>
    intro a h
    cases a with
    | nil => simp [listLt] at h
    | cons x as => simp [listLt] at h
  | cons y bs ih =>
    intro a h ca cb hca hcb
    cases a with
    | nil => simp [commonPrefixLen, List.get?] at hca
    | cons x as =>
      rw [listLt] at h
      by_cases hxy : y = x
      · subst hxy
        rw [if_neg (lt_irrefl y), if_neg (lt_irrefl y)] at h
        rw [commonPrefixLen, if_pos rfl] at hca hcb
        rw [List.get?_cons_succ] at hca hcb
        exact ih as h ca cb hca hcb
      · rw [commonPrefixLen, if_neg hxy] at hca hcb
        rw [List.get?_cons_zero] at hca hcb
        injection hca with hca
        injection hcb with hcb
        rw [← hca, ← hcb]
        by_cases h1 : x < y
        · exact h1
        · rw [if_neg h1] at h
          by_cases h2 : y < x
          · rw [if_pos h2] at h
            exact absurd h (by simp)
          · exact absurd (le_antisymm (not_lt.1 h2) (not_lt.1 h1)).symm hxy

/-! ## Frontier-path lemmas -/

theorem lastNode_nil (p : Nat) : lastNode p [] = p := rfl

theorem lastNode_cons (p : Nat) (f : Nat × Char × Nat) (rest : List (Nat × Char × Nat)) :
    lastNode p (f :: rest) = lastNode f.2.2 rest := by
  cases rest with
  | nil => rfl
  | cons g r =>
    unfold lastNode
    rw [List.getLast?_cons_cons]
    cases hg : (g :: r).getLast? with
    | none => simp at hg
    | some e => rfl

theorem lastNode_concat (p : Nat) (l : List (Nat × Char × Nat)) (e : Nat × Char × Nat) :
    lastNode p (l ++ [e]) = e.2.2 := by
  simp [lastNode, List.getLast?_concat]

theorem frontTip_eq_lastNode (d : Dawg) : frontTip d = lastNode d.root d.unchecked := by
  unfold frontTip lastNode
  rfl

theorem map_dropLast_eq (f : (Nat × Char × Nat) → Nat) :
    ∀ (l : List (Nat × Char × Nat)), (l.dropLast).map f = (l.map f).dropLast := by
  intro l
  induction l with
  | nil => rfl
  | cons e rest ih =>
    cases rest with
    | nil => rfl
    | cons g r =>
      simp only [List.dropLast_cons₂, List.map_cons]
      rw [ih]
      rfl

theorem lastNode_eq_getLast (p : Nat) (l : List (Nat × Char × Nat)) :
    lastNode p l = (p :: l.map (fun e => e.2.2)).getLast (by simp) := by
  induction l generalizing p with
  | nil => rfl
  | cons e rest ih =>
    rw [lastNode_cons]
    rw [ih e.2.2]
    simp only [List.map_cons]
    rw [List.getLast_cons_cons]

theorem frontierOK_prefix (σ : Store) :
    ∀ (l1 l2 : List (Nat × Char × Nat)) (p : Nat),
      frontierOK σ p (l1 ++ l2) → frontierOK σ p l1 := by
  intro l1
  induction l1 with
  | nil => intro l2 p _; trivial
  | cons e rest ih =>
    intro l2 p h
    obtain ⟨q, c, ch⟩ := e
    obtain ⟨h1, h2, h3, h4⟩ := h
    exact ⟨h1, h2, h3, ih l2 ch h4⟩

theorem frontierOK_congr_edges (σ1 σ2 : Store) :
    ∀ (l : List (Nat × Char × Nat)) (p : Nat),
      (∀ x ∈ p :: (l.dropLast).map (fun e => e.2.2),
        (getNode σ2 x).edges = (getNode σ1 x).edges) →
      frontierOK σ1 p l → frontierOK σ2 p l := by
  intro l
  induction l with
  | nil => intro p _ _; trivial
  | cons e rest ih =>
    intro p hcong h
    obtain ⟨q, c, ch⟩ := e
    obtain ⟨h1, h2, h3, h4⟩ := h
    have hp : (getNode σ2 p).edges = (getNode σ1 p).edges :=
      hcong p (List.mem_cons_self _ _)
    refine ⟨h1, by rw [hp]; exact h2, by rw [hp]; exact h3, ?_⟩
    cases rest with
    | nil => trivial
    | cons g r =>
      refine ih ch ?_ h4
      intro x hx
      rcases List.mem_cons.1 hx with hx | hx
      · subst hx
        exact hcong x (by simp [List.dropLast_cons₂])
      · refine hcong x ?_
        simp only [List.dropLast_cons₂, List.map_cons, List.mem_cons]
        right
        right
        exact hx

theorem frontierOK_mem (σ : Store) :
    ∀ (l : List (Nat × Char × Nat)) (p : Nat), frontierOK σ p l →
      ∀ e ∈ l, lookupEdge (getNode σ e.1).edges e.2.1 = some e.2.2 ∧
        ∀ x ∈ (getNode σ e.1).edges, x.1 ≤ e.2.1 := by
  intro l
  induction l with
  | nil => intro p _ e he; simp at he
  | cons f rest ih =>
    intro p h e he
    obtain ⟨q, c, ch⟩ := f
    obtain ⟨h1, h2, h3, h4⟩ := h
    rcases List.mem_cons.1 he with he | he
    · subst he
      subst h1
      exact ⟨h2, h3⟩
    · exact ih ch h4 e he

theorem frontierOK_last_parent (σ : Store) :
    ∀ (l1 : List (Nat × Char × Nat)) (e : Nat × Char × Nat) (p : Nat),
      frontierOK σ p (l1 ++ [e]) → e.1 = lastNode p l1 := by
  intro l1
  induction l1 with
  | nil =>
    intro e p h
    obtain ⟨q, c, ch⟩ := e
    obtain ⟨h1, _, _, _⟩ := h
    exact h1
  | cons f rest ih =>
    intro e p h
    obtain ⟨q, c, ch⟩ := f
    obtain ⟨h1, h2, h3, h4⟩ := h
    rw [lastNode_cons]
    exact ih e ch h4

theorem frontierOK_append_one (σ : Store) :
    ∀ (l : List (Nat × Char × Nat)) (p : Nat) (e : Nat × Char × Nat),
      frontierOK σ p l →
      e.1 = lastNode p l →
      lookupEdge (getNode σ (lastNode p l)).edges e.2.1 = some e.2.2 →
      (∀ x ∈ (getNode σ (lastNode p l)).edges, x.1 ≤ e.2.1) →
      frontierOK σ p (l ++ [e]) := by
  intro l
  induction l with
  | nil =>
    intro p e _ h1 h2 h3
    obtain ⟨q, c, ch⟩ := e
    exact ⟨h1, h2, h3, trivial⟩
  | cons f rest ih =>
    intro p e h h1 h2 h3
    obtain ⟨q, c, ch⟩ := f
    obtain ⟨g1, g2, g3, g4⟩ := h
    rw [lastNode_cons] at h1 h2 h3
    exact ⟨g1, g2, g3, ih ch e g4 h1 h2 h3⟩

theorem frontierOK_travPath (σ : Store) :
    ∀ (l : List (Nat × Char × Nat)) (p : Nat), frontierOK σ p l →
      walk σ p (l.map (fun e => e.2.1)) = some (lastNode p l) := by
  intro l
  induction l with
  | nil => intro p _; rfl
  | cons f rest ih =>
    intro p h
    obtain ⟨q, c, ch⟩ := f
    obtain ⟨h1, h2, h3, h4⟩ := h
    simp only [List.map_cons, walk, h2]
    rw [lastNode_cons p (q, c, ch) rest]
    exact ih ch h4

theorem chainLt_getLast_not_mem_dropLast (L : List Nat) (hc : List.Chain' (fun a b => a < b) L)
    (hne : L ≠ []) : L.getLast hne ∉ L.dropLast := by
  have hp : List.Pairwise (fun a b => a < b) L := List.chain'_iff_pairwise.1 hc
  intro hmem
  have hsplit := List.dropLast_append_getLast hne
  rw [← hsplit] at hp
  rw [List.pairwise_append] at hp
  have := hp.2.2 _ hmem (L.getLast hne) (List.mem_singleton.2 rfl)
  exact lt_irrefl _ this

/-! ## Traversal lemmas -/

theorem traverse_congr_edges (σ1 σ2 : Store)
    (h : ∀ x, (getNode σ2 x).edges = (getNode σ1 x).edges) :
    ∀ (w : List Char) (n : Nat), walk σ2 n w = walk σ1 n w := by
  intro w
  induction w with
  | nil => intro n; rfl
  | cons c v ih =>
    intro n
    simp only [walk, h n]
    cases lookupEdge (getNode σ1 n).edges c with
    | none => rfl
    | some t => exact ih t

theorem accepts_record_eq (σ : Store) (x y : Nat)
    (ht : (getNode σ x).terminal = (getNode σ y).terminal)
    (he : (getNode σ x).edges = (getNode σ y).edges) :
    ∀ w : List Char, accepts σ x w = accepts σ y w := by
  intro w
  cases w with
  | nil => simp [accepts, walk, ht]
  | cons c v =>
    simp only [accepts, walk, he]

theorem traverse_snoc (σ : Store) :
    ∀ (q : List Char) (a : Char) (x y : Nat),
      walk σ x (q ++ [a]) = some y ↔
        ∃ z, walk σ x q = some z ∧ lookupEdge (getNode σ z).edges a = some y := by
  intro q
  induction q with
  | nil =>
    intro a x y
    simp only [List.nil_append, walk]
    constructor
    · intro h
      cases hle : lookupEdge (getNode σ x).edges a with
      | none => rw [hle] at h; exact absurd h (by simp)
      | some t =>
        rw [hle] at h
        injection h with h
        exact ⟨x, rfl, by rw [hle, h]⟩
    · intro ⟨z, hz, hl⟩
      injection hz with hz
      subst hz
      rw [hl]
  | cons c v ih =>
    intro a x y
    simp only [List.cons_append, walk]
    cases hle : lookupEdge (getNode σ x).edges c with
    | none =>
      constructor
      · intro h; exact absurd h (by simp)
      · intro ⟨z, hz, _⟩; exact absurd hz (by simp)
    | some t => exact ih a t y

theorem accepts_flip (σ : Store) (f : Nat) (y : Nat) (w : List Char) :
    accepts (setNode σ f { getNode σ f with terminal := true }) y w = true ↔
      (accepts σ y w = true ∨ walk σ y w = some f) := by
  have hedge : ∀ x, (getNode (setNode σ f { getNode σ f with terminal := true }) x).edges
      = (getNode σ x).edges := by
    intro x
    rw [getNode_setNode]
    by_cases hx : x = f
    · subst hx; simp
    · rw [if_neg hx]
  unfold accepts
  rw [traverse_congr_edges _ _ hedge]
  cases htr : walk σ y w with
  | none => simp
  | some t =>
    simp only [Option.some.injEq]
    show (getNode (setNode σ f { getNode σ f with terminal := true }) t).terminal = true ↔
      ((getNode σ t).terminal = true ∨ t = f)
    rw [getNode_setNode]
    by_cases htf : t = f
    · subst htf
      simp
    · rw [if_neg htf]
      simp [htf]

theorem walk_path_unique (σ : Store) :
    ∀ (l : List (Nat × Char × Nat)) (p : Nat),
      frontierOK σ p l →
      (∀ e ∈ l, UniqIn σ e.1 e.2.1 e.2.2) →
      (∀ x : Nat, ∀ e ∈ (getNode σ x).edges, e.2 ≠ p) →
      List.Chain' (fun a b => a < b) (p :: l.map (fun e => e.2.2)) →
      ∀ q : List Char, walk σ p q = some (lastNode p l) → q = l.map (fun e => e.2.1) := by
  intro l
  induction l using List.reverseRecOn with
  | nil =>
    intro p _ _ hnoin _ q hq
    rw [lastNode_nil] at hq
    cases hqs : q.reverse with
    | nil =>
      have : q = [] := by
        have := congrArg List.reverse hqs
        simpa using this
      simp [this]
    | cons a q2 =>
      exfalso
      have hq2 : q = q2.reverse ++ [a] := by
        have := congrArg List.reverse hqs
        simpa using this
      rw [hq2] at hq
      obtain ⟨z, _, hlk⟩ := (traverse_snoc σ q2.reverse a p p).1 hq
      exact hnoin z (a, p) (lookupEdge_mem _ _ _ hlk) rfl
  | append_singleton l1 e ih =>
    intro p hf hu hnoin hchain q hq
    rw [lastNode_concat] at hq
    have hf1 : frontierOK σ p l1 := frontierOK_prefix σ l1 [e] p hf
    have hchain1 : List.Chain' (fun a b => a < b) (p :: l1.map (fun x => x.2.2)) := by
      refine List.Chain'.prefix hchain ?_
      refine ⟨[e.2.2], ?_⟩
      simp
    cases hqs : q.reverse with
    | nil =>
      exfalso
      have hqe : q = [] := by
        have := congrArg List.reverse hqs
        simpa using this
      rw [hqe] at hq
      injection hq with hq
      have hpair : List.Pairwise (fun a b => a < b) (p :: (l1 ++ [e]).map (fun x => x.2.2)) :=
        List.chain'_iff_pairwise.1 hchain
      have hplt : p < e.2.2 := by
        refine (List.pairwise_cons.1 hpair).1 e.2.2 ?_
        simp
      omega
    | cons a q2 =>
      have hq2 : q = q2.reverse ++ [a] := by
        have := congrArg List.reverse hqs
        simpa using this
      rw [hq2] at hq
      obtain ⟨z, hwz, hlk⟩ := (traverse_snoc σ q2.reverse a p e.2.2).1 hq
      have hzpar := hu e (by simp) z (a, e.2.2) (lookupEdge_mem _ _ _ hlk) rfl
      have hz : z = e.1 := hzpar.1
      have ha : a = e.2.1 := hzpar.2
      have hpar : e.1 = lastNode p l1 := frontierOK_last_parent σ l1 e p hf
      rw [hz, hpar] at hwz
      have hu1 : ∀ f ∈ l1, UniqIn σ f.1 f.2.1 f.2.2 := fun f hfm =>
        hu f (List.mem_append_left _ hfm)
      have := ih p hf1 hu1 hnoin hchain1 q2.reverse hwz
      rw [hq2, this, ha]
      simp

theorem walk_none_of_nonascii (σ : Store)
    (hlab : ∀ x : Nat, ∀ e ∈ (getNode σ x).edges, e.1.toNat < 128) :
    ∀ (q : List Char) (x : Nat), (∃ c ∈ q, ¬ c.toNat < 128) → walk σ x q = none := by
  intro q
  induction q with
  | nil =>
    intro x h
    obtain ⟨c, hc, _⟩ := h
    simp at hc
  | cons c v ih =>
    intro x h
    simp only [walk]
    cases hle : lookupEdge (getNode σ x).edges c with
    | none => rfl
    | some t =>
      have hca : c.toNat < 128 := hlab x (c, t) (lookupEdge_mem _ _ _ hle)
      obtain ⟨b, hb, hbn⟩ := h
      rcases List.mem_cons.1 hb with hb | hb
      · exact absurd (hb ▸ hca) hbn
      · exact ih t ⟨b, hb, hbn⟩

theorem accepts_cons (σ : Store) (x : Nat) (a : Char) (v : List Char) :
    accepts σ x (a :: v) =
      (match lookupEdge (getNode σ x).edges a with
       | some t => accepts σ t v
       | none => false) := by
  simp only [accepts, walk]
  cases lookupEdge (getNode σ x).edges a with
  | none => rfl
  | some t => rfl

theorem accepts_redirect (σ : Store) (p : Nat) (c : Char) (ch m : Nat)
    (hlk : lookupEdge (getNode σ p).edges c = some ch)
    (ht : (getNode σ m).terminal = (getNode σ ch).terminal)
    (he : (getNode σ m).edges = (getNode σ ch).edges) :
    ∀ (q : List Char) (x : Nat),
      accepts (setNode σ p { getNode σ p with edges := insertEdge (getNode σ p).edges c m }) x q
        = accepts σ x q := by
  intro q
  induction q with
  | nil =>
    intro x
    simp only [accepts, walk, getNode_setNode]
    by_cases hx : x = p
    · subst hx; simp
    · rw [if_neg hx]
  | cons a v ih =>
    intro x
    rw [accepts_cons, accepts_cons, getNode_setNode]
    by_cases hx : x = p
    · subst hx
      rw [if_pos rfl]
      by_cases hac : a = c
      · subst hac
        rw [show ({ getNode σ x with edges := insertEdge (getNode σ x).edges a m } : NodeData).edges
            = insertEdge (getNode σ x).edges a m from rfl]
        rw [lookupEdge_insertEdge_self, hlk]
        show accepts (setNode σ x { getNode σ x with edges := insertEdge (getNode σ x).edges a m }) m v
            = accepts σ ch v
        rw [ih m]
        exact accepts_record_eq σ m ch ht he v
      · rw [show ({ getNode σ x with edges := insertEdge (getNode σ x).edges c m } : NodeData).edges
            = insertEdge (getNode σ x).edges c m from rfl]
        rw [lookupEdge_insertEdge_other _ _ _ _ hac]
        cases lookupEdge (getNode σ x).edges a with
        | none => rfl
        | some t => exact ih t
    · rw [if_neg hx]
      cases lookupEdge (getNode σ x).edges a with
      | none => rfl
      | some t => exact ih t

theorem mem_insertSig (mz : List (List Char × Nat)) (k : List Char) (m : Nat) :
    ∀ e ∈ insertSig mz k m, e = (k, m) ∨ e ∈ mz := by
  induction mz with
  | nil =>
    intro e he
    simp [insertSig] at he
    left
    simpa using he
  | cons f r ih =>
    obtain ⟨s, n⟩ := f
    intro e he
    by_cases hk : k = s
    · subst hk
      rw [insertSig, if_pos rfl] at he
      rcases List.mem_cons.1 he with h | h
      · left; exact h
      · right; exact List.mem_cons_of_mem _ h
    · rw [insertSig, if_neg hk] at he
      rcases List.mem_cons.1 he with h | h
      · right; exact h ▸ List.mem_cons_self _ _
      · rcases ih e h with h2 | h2
        · left; exact h2
        · right; exact List.mem_cons_of_mem _ h2

theorem cons_map_dropLast (a : Nat) (l : List (Nat × Char × Nat)) (hne : l ≠ []) :
    a :: (l.dropLast).map (fun e => e.2.2) = (a :: l.map (fun e => e.2.2)).dropLast := by
  cases l with
  | nil => exact absurd rfl hne
  | cons g r =>
    rw [map_dropLast_eq]
    simp only [List.map_cons]
    rw [List.dropLast_cons₂]

theorem minimizeStep_eq (d : Dawg) (i : Nat) (par : Nat) (ltr : Char) (ch : Nat)
    (he : d.unchecked.get? i = some (par, ltr, ch)) :
    minimizeStep d i =
      (match lookupSig d.minimized (sigChars d.store ch) with
       | some m =>
         { d with
           store := setNode d.store par
             { getNode d.store par with
               edges := insertEdge (getNode d.store par).edges ltr m },
           unchecked := d.unchecked.dropLast }
       | none =>
         { d with
           minimized := insertSig d.minimized (sigChars d.store ch) ch,
           unchecked := d.unchecked.dropLast }) := by
  unfold minimizeStep
  rw [he]

theorem minimizeStep_core (d : Dawg) (ws : List (List Char)) (hc : Core d ws)
    (hne : d.unchecked ≠ []) :
    Core (minimizeStep d (d.unchecked.length - 1)) ws
    ∧ (minimizeStep d (d.unchecked.length - 1)).root = d.root
    ∧ (minimizeStep d (d.unchecked.length - 1)).nextId = d.nextId
    ∧ (minimizeStep d (d.unchecked.length - 1)).previousWord = d.previousWord
    ∧ (∀ x : Nat, (getNode (minimizeStep d (d.unchecked.length - 1)).store x).terminal
        = (getNode d.store x).terminal)
    ∧ (∀ x : Nat, ((getNode (minimizeStep d (d.unchecked.length - 1)).store x).edges).map Prod.fst
        = ((getNode d.store x).edges).map Prod.fst)
    ∧ (∀ (q : List Char) (x : Nat),
        accepts (minimizeStep d (d.unchecked.length - 1)).store x q = accepts d.store x q) := by
  rcases hgl : d.unchecked.getLast hne with ⟨par, ltr, ch⟩
  have hmem : (par, ltr, ch) ∈ d.unchecked := hgl ▸ List.getLast_mem hne
  obtain ⟨dl, hsplit⟩ : ∃ dl, d.unchecked = dl ++ [(par, ltr, ch)] := by
    refine ⟨d.unchecked.dropLast, ?_⟩
    rw [← hgl]
    exact (List.dropLast_append_getLast hne).symm
  have hdl : d.unchecked.dropLast = dl := by rw [hsplit]; simp
  have he : d.unchecked.get? (d.unchecked.length - 1) = some (par, ltr, ch) := by
    rw [hsplit]
    rw [show (dl ++ [(par, ltr, ch)]).length - 1 = dl.length by simp]
    exact List.get?_concat_length dl (par, ltr, ch)
  have hfOK' : frontierOK d.store d.root (dl ++ [(par, ltr, ch)]) := by
    rw [← hsplit]; exact hc.frontier
  have hfdl : frontierOK d.store d.root dl := frontierOK_prefix _ _ _ _ hfOK'
  have hlk : lookupEdge (getNode d.store par).edges ltr = some ch :=
    (frontierOK_mem _ _ _ hc.frontier (par, ltr, ch) hmem).1
  have hpar_last : par = lastNode d.root dl :=
    frontierOK_last_parent d.store dl (par, ltr, ch) d.root hfOK'
  have hpath : pathNodes d = (d.root :: dl.map (fun e => e.2.2)) ++ [ch] := by
    rw [pathNodes, hsplit]
    simp
  have hpair : List.Pairwise (fun a b => a < b)
      ((d.root :: dl.map (fun e => e.2.2)) ++ [ch]) := by
    rw [← hpath]
    exact List.chain'_iff_pairwise.1 hc.pathMono
  rw [List.pairwise_append] at hpair
  have hlt_ch : ∀ x ∈ d.root :: dl.map (fun e => e.2.2), x < ch :=
    fun x hx => hpair.2.2 x hx ch (List.mem_singleton.2 rfl)
  have hchNot : ch ∉ d.root :: dl.map (fun e => e.2.2) :=
    fun hch => lt_irrefl ch (hlt_ch ch hch)
  have hch_path : ch ∈ pathNodes d := by rw [hpath]; simp
  have hsub : ∀ x ∈ d.root :: dl.map (fun e => e.2.2), x ∈ pathNodes d := by
    intro x hx
    rw [hpath]
    exact List.mem_append_left _ hx
  have hchain' : List.Chain' (fun a b => a < b) (d.root :: dl.map (fun e => e.2.2)) := by
    rw [List.chain'_iff_pairwise]
    exact hpair.1
  have hparNot : dl ≠ [] → par ∉ d.root :: (dl.dropLast).map (fun e => e.2.2) := by
    intro hdlne hparmem
    have hA : (d.root :: dl.map (fun e => e.2.2)) ≠ [] := by simp
    have hpar_eq : par = (d.root :: dl.map (fun e => e.2.2)).getLast hA :=
      hpar_last.trans (lastNode_eq_getLast _ _)
    have hnm := chainLt_getLast_not_mem_dropLast _ hchain' hA
    rw [← hpar_eq] at hnm
    apply hnm
    rw [cons_map_dropLast _ _ hdlne] at hparmem
    exact hparmem
  have hpar_path : par ∈ pathNodes d := by
    apply hsub
    rw [hpar_last, lastNode_eq_getLast]
    exact List.getLast_mem _
  have hpar_keys : par ∈ d.store.map Prod.fst := by
    rw [hc.storeKeys, List.mem_range]
    exact hc.pathLt par hpar_path
  have hdl_sub : ∀ e ∈ dl, e ∈ d.unchecked := by
    intro e hedl
    rw [hsplit]
    exact List.mem_append_left _ hedl
  cases hs : lookupSig d.minimized (sigChars d.store ch) with
  | none =>
    have hstep : minimizeStep d (d.unchecked.length - 1) =
        { d with minimized := insertSig d.minimized (sigChars d.store ch) ch,
                 unchecked := dl } := by
      rw [minimizeStep_eq d _ par ltr ch he, hs, hdl]
    rw [hstep]
    refine ⟨⟨hc.storeKeys, hc.edgesLt, ?_, hfdl, hchain', ?_, ?_, hc.rootNoIn, ?_, ?_,
      hc.rootNotTerminal, hc.labelsAscii, ?_, hc.lang⟩,
      rfl, rfl, rfl, fun _ => rfl, fun _ => rfl, fun _ _ => rfl⟩
    · intro m hm
      rcases mem_insertSig _ _ _ m hm with h | h
      · rw [h]
        exact hc.pathLt ch hch_path
      · exact hc.minimizedLt m h
    · intro x hx
      exact hc.pathLt x (hsub x hx)
    · intro e hedl
      exact hc.pathUniq e (hdl_sub e hedl)
    · intro m hm hmp
      rcases mem_insertSig _ _ _ m hm with h | h
      · rw [h] at hmp
        exact hchNot hmp
      · exact hc.regNotPath m h (hsub _ hmp)
    · intro m hm
      rcases mem_insertSig _ _ _ m hm with h | h
      · rw [h]
      · exact hc.regSig m h
    · show dl.length ≤ 128
      have h1 : dl.length + 1 = d.unchecked.length := by rw [hsplit]; simp
      have h2 := hc.lenBound
      omega
  | some m =>
    have hstep : minimizeStep d (d.unchecked.length - 1) =
        { d with
          store := setNode d.store par
            { getNode d.store par with
              edges := insertEdge (getNode d.store par).edges ltr m },
          unchecked := dl } := by
      rw [minimizeStep_eq d _ par ltr ch he, hs, hdl]
    rw [hstep]
    have hmz : (sigChars d.store ch, m) ∈ d.minimized := lookupSig_mem _ _ _ hs
    have hmsig : sigNode (getNode d.store m) = sigNode (getNode d.store ch) := hc.regSig _ hmz
    have hmrec := (sigNode_inj_iff (getNode d.store m) (getNode d.store ch)).1 hmsig
    have hmLt : m < d.nextId := hc.minimizedLt _ hmz
    have hmNotPath : m ∉ pathNodes d := hc.regNotPath _ hmz
    have hltr_mem : ltr ∈ (getNode d.store par).edges.map Prod.fst :=
      List.mem_map.2 ⟨(ltr, ch), lookupEdge_mem _ _ _ hlk, rfl⟩
    set σ2 := setNode d.store par
      { getNode d.store par with
        edges := insertEdge (getNode d.store par).edges ltr m } with hσ
    have hterm : ∀ x : Nat, (getNode σ2 x).terminal = (getNode d.store x).terminal := by
      intro x
      rw [hσ, getNode_setNode]
      by_cases hx : x = par
      · rw [if_pos hx, hx]
      · rw [if_neg hx]
    have hlabmap : ∀ x : Nat,
        ((getNode σ2 x).edges).map Prod.fst = ((getNode d.store x).edges).map Prod.fst := by
      intro x
      rw [hσ, getNode_setNode]
      by_cases hx : x = par
      · rw [if_pos hx, hx]
        exact insertEdge_map_fst_of_mem _ _ _ hltr_mem
      · rw [if_neg hx]
    have hacc : ∀ (q : List Char) (x : Nat), accepts σ2 x q = accepts d.store x q := by
      intro q x
      rw [hσ]
      exact accepts_redirect d.store par ltr ch m hlk hmrec.1 hmrec.2 q x
    refine ⟨⟨?_, ?_, hc.minimizedLt, ?_, hchain', ?_, ?_, ?_, ?_, ?_, ?_, ?_, ?_, ?_⟩,
      rfl, rfl, rfl, hterm, hlabmap, hacc⟩
    · show σ2.map Prod.fst = List.range d.nextId
      rw [hσ, setNode_map_fst _ _ _ hpar_keys]
      exact hc.storeKeys
    · show ∀ x : Nat, ∀ e ∈ (getNode σ2 x).edges, e.2 < d.nextId
      intro x e hf
      rw [hσ, getNode_setNode] at hf
      by_cases hx : x = par
      · rw [if_pos hx] at hf
        rcases mem_insertEdge _ _ _ e hf with h | h
        · rw [h]
          exact hmLt
        · exact hc.edgesLt par e h
      · rw [if_neg hx] at hf
        exact hc.edgesLt x e hf
    · show frontierOK σ2 d.root dl
      by_cases hdlne : dl = []
      · rw [hdlne]
        trivial
      · refine frontierOK_congr_edges d.store σ2 dl d.root ?_ hfdl
        intro x hx
        have hxpar : x ≠ par := by
          intro hxe
          exact hparNot hdlne (hxe ▸ hx)
        rw [hσ, getNode_setNode, if_neg hxpar]
    · show ∀ x ∈ d.root :: dl.map (fun e => e.2.2), x < d.nextId
      intro x hx
      exact hc.pathLt x (hsub x hx)
    · show ∀ e ∈ dl, UniqIn σ2 e.1 e.2.1 e.2.2
      intro e hedl x f hf htgt
      rw [hσ, getNode_setNode] at hf
      by_cases hx : x = par
      · rw [if_pos hx] at hf
        rcases mem_insertEdge _ _ _ f hf with h | h
        · exfalso
          rw [h] at htgt
          have he22 : e.2.2 ∈ pathNodes d := by
            apply hsub
            exact List.mem_cons_of_mem _ (List.mem_map.2 ⟨e, hedl, rfl⟩)
          rw [← htgt] at he22
          exact hmNotPath he22
        · exact hc.pathUniq e (hdl_sub e hedl) x f (by rw [hx]; exact h) htgt
      · rw [if_neg hx] at hf
        exact hc.pathUniq e (hdl_sub e hedl) x f hf htgt
    · show ∀ x : Nat, ∀ f ∈ (getNode σ2 x).edges, f.2 ≠ d.root
      intro x f hf
      rw [hσ, getNode_setNode] at hf
      by_cases hx : x = par
      · rw [if_pos hx] at hf
        rcases mem_insertEdge _ _ _ f hf with h | h
        · rw [h]
          show m ≠ d.root
          intro hmr
          apply hmNotPath
          rw [hmr]
          exact List.mem_cons_self _ _
        · exact hc.rootNoIn par f h
      · rw [if_neg hx] at hf
        exact hc.rootNoIn x f hf
    · show ∀ mm ∈ d.minimized, mm.2 ∉ d.root :: dl.map (fun e => e.2.2)
      intro mm hmm hmp
      exact hc.regNotPath mm hmm (hsub _ hmp)
    · show ∀ mm ∈ d.minimized, sigChars σ2 mm.2 = mm.1
      intro mm hmm
      have hne2 : mm.2 ≠ par := by
        intro heq
        exact hc.regNotPath mm hmm (by rw [heq]; exact hpar_path)
      show sigNode (getNode σ2 mm.2) = mm.1
      rw [hσ, getNode_setNode, if_neg hne2]
      exact hc.regSig mm hmm
    · show (getNode σ2 d.root).terminal = false
      rw [hterm d.root]
      exact hc.rootNotTerminal
    · show ∀ x : Nat, ∀ f ∈ (getNode σ2 x).edges, f.1.toNat < 128
      intro x f hf
      rw [hσ, getNode_setNode] at hf
      by_cases hx : x = par
      · rw [if_pos hx] at hf
        rcases mem_insertEdge _ _ _ f hf with h | h
        · rw [h]
          exact hc.labelsAscii par (ltr, ch) (lookupEdge_mem _ _ _ hlk)
        · exact hc.labelsAscii par f h
      · rw [if_neg hx] at hf
        exact hc.labelsAscii x f hf
    · show dl.length ≤ 128
      have h1 : dl.length + 1 = d.unchecked.length := by rw [hsplit]; simp
      have h2 := hc.lenBound
      omega
    · show ∀ q : List Char, accepts σ2 d.root q = true ↔ q ∈ ws
      intro q
      rw [hacc q d.root]
      exact hc.lang q

theorem iterateMin_core (ws : List (List Char)) :
    ∀ (k : Nat) (d : Dawg), Core d ws → k ≤ d.unchecked.length →
      Core (iterateMin d k) ws
      ∧ (iterateMin d k).root = d.root
      ∧ (iterateMin d k).nextId = d.nextId
      ∧ (iterateMin d k).previousWord = d.previousWord
      ∧ (∀ x : Nat, (getNode (iterateMin d k).store x).terminal = (getNode d.store x).terminal)
      ∧ (∀ x : Nat, ((getNode (iterateMin d k).store x).edges).map Prod.fst
          = ((getNode d.store x).edges).map Prod.fst)
      ∧ (∀ (q : List Char) (x : Nat),
          accepts (iterateMin d k).store x q = accepts d.store x q) := by
  intro k
  induction k with
  | zero =>
    intro d hc _
    exact ⟨hc, rfl, rfl, rfl, fun _ => rfl, fun _ => rfl, fun _ _ => rfl⟩
  | succ k ih =>
    intro d hc hk
    have hpos : 0 < d.unchecked.length := by omega
    have hne : d.unchecked ≠ [] := by
      intro h
      rw [h] at hpos
      simp at hpos
    obtain ⟨hc1, hroot1, hnid1, hprev1, hterm1, hlab1, hacc1⟩ := minimizeStep_core d ws hc hne
    have hlen1 : (minimizeStep d (d.unchecked.length - 1)).unchecked = d.unchecked.dropLast :=
      minimizeStep_unchecked d _ (by omega)
    have hk1 : k ≤ (minimizeStep d (d.unchecked.length - 1)).unchecked.length := by
      rw [hlen1, List.length_dropLast]
      omega
    obtain ⟨hc2, hroot2, hnid2, hprev2, hterm2, hlab2, hacc2⟩ :=
      ih (minimizeStep d (d.unchecked.length - 1)) hc1 hk1
    refine ⟨hc2, hroot2.trans hroot1, hnid2.trans hnid1, hprev2.trans hprev1, ?_, ?_, ?_⟩
    · intro x
      show (getNode (iterateMin (minimizeStep d (d.unchecked.length - 1)) k).store x).terminal
          = (getNode d.store x).terminal
      rw [hterm2 x, hterm1 x]
    · intro x
      show ((getNode (iterateMin (minimizeStep d (d.unchecked.length - 1)) k).store x).edges).map
            Prod.fst
          = ((getNode d.store x).edges).map Prod.fst
      rw [hlab2 x, hlab1 x]
    · intro q x
      show accepts (iterateMin (minimizeStep d (d.unchecked.length - 1)) k).store x q
          = accepts d.store x q
      rw [hacc2 q x, hacc1 q x]

theorem getNode_attach (σ : Store) (t n : Nat) (nd : NodeData)
    (hkeys : σ.map Prod.fst = List.range n) (ht : t ∈ σ.map Prod.fst) :
    ∀ x : Nat, getNode (setNode σ t nd ++ [(n, defaultNode)]) x
      = if x = n then defaultNode else if x = t then nd else getNode σ x := by
  intro x
  by_cases hxn : x = n
  · subst hxn
    rw [if_pos rfl, getNode_append_of_not_mem]
    · simp [getNode]
    · rw [setNode_map_fst _ _ _ ht, hkeys]
      simp
  · rw [if_neg hxn]
    by_cases hxk : x ∈ σ.map Prod.fst
    · rw [getNode_append_of_mem]
      · rw [getNode_setNode]
      · rw [setNode_map_fst _ _ _ ht]
        exact hxk
    · have hxt : x ≠ t := fun h => hxk (h ▸ ht)
      rw [if_neg hxt, getNode_append_of_not_mem]
      · rw [getNode, if_neg hxn, getNode, getNode_not_mem σ x hxk]
      · rw [setNode_map_fst _ _ _ ht]
        exact hxk

theorem accepts_attach (σ : Store) (t n : Nat) (l : Char)
    (hkeys : σ.map Prod.fst = List.range n)
    (ht : t ∈ σ.map Prod.fst)
    (hElt : ∀ x : Nat, ∀ e ∈ (getNode σ x).edges, e.2 < n)
    (hnoe : lookupEdge (getNode σ t).edges l = none) :
    ∀ (q : List Char) (x : Nat), x < n →
      accepts (setNode σ t { getNode σ t with edges := insertEdge (getNode σ t).edges l n }
          ++ [(n, defaultNode)]) x q
        = accepts σ x q := by
  have hGN := getNode_attach σ t n
    { getNode σ t with edges := insertEdge (getNode σ t).edges l n } hkeys ht
  intro q
  induction q with
  | nil =>
    intro x hx
    simp only [accepts, walk]
    rw [hGN x, if_neg (by omega)]
    by_cases hxt : x = t
    · rw [if_pos hxt, hxt]
    · rw [if_neg hxt]
  | cons a v ih =>
    intro x hx
    rw [accepts_cons, accepts_cons, hGN x, if_neg (by omega)]
    by_cases hxt : x = t
    · rw [if_pos hxt]
      show (match lookupEdge (insertEdge (getNode σ t).edges l n) a with
            | some u => accepts (setNode σ t
                { getNode σ t with edges := insertEdge (getNode σ t).edges l n }
                ++ [(n, defaultNode)]) u v
            | none => false)
          = _
      by_cases hal : a = l
      · subst hal
        rw [lookupEdge_insertEdge_self, hxt, hnoe]
        show accepts (setNode σ t
            { getNode σ t with edges := insertEdge (getNode σ t).edges a n }
            ++ [(n, defaultNode)]) n v = false
        cases v with
        | nil =>
          simp only [accepts, walk]
          rw [hGN n, if_pos rfl]
          rfl
        | cons b r =>
          rw [accepts_cons, hGN n, if_pos rfl]
          rfl
      · rw [lookupEdge_insertEdge_other _ _ _ _ hal, hxt]
        cases hlu : lookupEdge (getNode σ t).edges a with
        | none => rfl
        | some u =>
          exact ih u (hElt t (a, u) (lookupEdge_mem _ _ _ hlu))
    · rw [if_neg hxt]
      cases hlu : lookupEdge (getNode σ x).edges a with
      | none => rfl
      | some u =>
        exact ih u (hElt x (a, u) (lookupEdge_mem _ _ _ hlu))

theorem attachOne_inv (d : Dawg) (ws : List (List Char)) (l : Char) (hc : Core d ws)
    (hl : l.toNat < 128)
    (hlen : d.unchecked.length < 128)
    (hstrict : ∀ e ∈ (getNode d.store (frontTip d)).edges, e.1 < l) :
    Core (attachOne d l) ws
    ∧ (attachOne d l).root = d.root
    ∧ (attachOne d l).nextId = d.nextId + 1
    ∧ (attachOne d l).previousWord = d.previousWord
    ∧ (attachOne d l).minimized = d.minimized
    ∧ (attachOne d l).unchecked = d.unchecked ++ [(frontTip d, l, d.nextId)]
    ∧ (getNode (attachOne d l).store d.nextId).edges = []
    ∧ frontTip (attachOne d l) = d.nextId
    ∧ (∀ (q : List Char) (x : Nat), x < d.nextId →
        accepts (attachOne d l).store x q = accepts d.store x q) := by
  have ht_path : frontTip d ∈ pathNodes d := by
    rw [frontTip_eq_lastNode, lastNode_eq_getLast]
    exact List.getLast_mem _
  have ht_lt : frontTip d < d.nextId := hc.pathLt _ ht_path
  have htn : frontTip d ≠ d.nextId := by omega
  have hroot_lt : d.root < d.nextId := hc.pathLt d.root (List.mem_cons_self _ _)
  have ht_keys : frontTip d ∈ d.store.map Prod.fst := by
    rw [hc.storeKeys, List.mem_range]
    exact ht_lt
  have hnoe : lookupEdge (getNode d.store (frontTip d)).edges l = none := by
    rw [lookupEdge_none_iff]
    intro hmem
    obtain ⟨e, he, heq⟩ := List.mem_map.1 hmem
    exact lt_irrefl l (heq ▸ hstrict e he)
  have hGN : ∀ x : Nat, getNode (attachOne d l).store x
      = if x = d.nextId then defaultNode
        else if x = frontTip d then
          { getNode d.store (frontTip d) with
            edges := insertEdge (getNode d.store (frontTip d)).edges l d.nextId }
        else getNode d.store x :=
    getNode_attach d.store (frontTip d) d.nextId _ hc.storeKeys ht_keys
  have hacc : ∀ (q : List Char) (x : Nat), x < d.nextId →
      accepts (attachOne d l).store x q = accepts d.store x q :=
    accepts_attach d.store (frontTip d) d.nextId l hc.storeKeys ht_keys hc.edgesLt hnoe
  have hpath' : pathNodes (attachOne d l) = pathNodes d ++ [d.nextId] := by
    show d.root :: (d.unchecked ++ [(frontTip d, l, d.nextId)]).map (fun e => e.2.2)
        = (d.root :: d.unchecked.map (fun e => e.2.2)) ++ [d.nextId]
    simp
  have hreads_sub : ∀ x ∈ d.root :: (d.unchecked.dropLast).map (fun e => e.2.2),
      x ∈ pathNodes d := by
    intro x hx
    rcases List.mem_cons.1 hx with hx | hx
    · rw [hx]
      exact List.mem_cons_self _ _
    · rw [map_dropLast_eq] at hx
      exact List.mem_cons_of_mem _ ((List.dropLast_prefix _).sublist.subset hx)
  have htNot : d.unchecked ≠ [] →
      frontTip d ∉ d.root :: (d.unchecked.dropLast).map (fun e => e.2.2) := by
    intro hu hmem
    have hA : pathNodes d ≠ [] := by simp [pathNodes]
    have heq : frontTip d = (pathNodes d).getLast hA :=
      (frontTip_eq_lastNode d).trans (lastNode_eq_getLast _ _)
    have hnm := chainLt_getLast_not_mem_dropLast (pathNodes d) hc.pathMono hA
    rw [← heq] at hnm
    apply hnm
    have hdl : d.root :: (d.unchecked.dropLast).map (fun e => e.2.2)
        = (pathNodes d).dropLast := by
      rw [cons_map_dropLast _ _ hu]
      rfl
    rw [hdl] at hmem
    exact hmem
  refine ⟨⟨?_, ?_, ?_, ?_, ?_, ?_, ?_, ?_, ?_, ?_, ?_, ?_, ?_, ?_⟩,
    rfl, rfl, rfl, rfl, rfl, ?_, ?_, hacc⟩
  · show (attachOne d l).store.map Prod.fst = List.range (d.nextId + 1)
    show (setNode d.store (frontTip d)
        { getNode d.store (frontTip d) with
          edges := insertEdge (getNode d.store (frontTip d)).edges l d.nextId }
      ++ [(d.nextId, defaultNode)]).map Prod.fst = List.range (d.nextId + 1)
    rw [List.map_append, setNode_map_fst _ _ _ ht_keys, hc.storeKeys, List.range_succ]
    rfl
  · intro x e he
    show e.2 < d.nextId + 1
    rw [hGN x] at he
    by_cases hxn : x = d.nextId
    · rw [if_pos hxn] at he
      simp [defaultNode] at he
    · rw [if_neg hxn] at he
      by_cases hxt : x = frontTip d
      · rw [if_pos hxt] at he
        rcases mem_insertEdge _ _ _ e he with h | h
        · rw [h]
          omega
        · have := hc.edgesLt (frontTip d) e h
          omega
      · rw [if_neg hxt] at he
        have := hc.edgesLt x e he
        omega
  · intro m hm
    show m.2 < d.nextId + 1
    have := hc.minimizedLt m hm
    omega
  · show frontierOK (attachOne d l).store d.root
      (d.unchecked ++ [(frontTip d, l, d.nextId)])
    refine frontierOK_append_one _ _ _ _ ?_ ?_ ?_ ?_
    · by_cases hu : d.unchecked = []
      · rw [hu]
        trivial
      · refine frontierOK_congr_edges d.store _ _ _ ?_ hc.frontier
        intro x hx
        have hxp : x ∈ pathNodes d := hreads_sub x hx
        have hxn : x ≠ d.nextId := by
          have := hc.pathLt x hxp
          omega
        have hxt : x ≠ frontTip d := fun h => htNot hu (h ▸ hx)
        rw [hGN x, if_neg hxn, if_neg hxt]
    · exact frontTip_eq_lastNode d
    · rw [← frontTip_eq_lastNode, hGN (frontTip d), if_neg htn, if_pos rfl]
      show lookupEdge (insertEdge (getNode d.store (frontTip d)).edges l d.nextId) l
          = some d.nextId
      exact lookupEdge_insertEdge_self _ _ _
    · rw [← frontTip_eq_lastNode, hGN (frontTip d), if_neg htn, if_pos rfl]
      show ∀ f ∈ insertEdge (getNode d.store (frontTip d)).edges l d.nextId, f.1 ≤ l
      intro f hf
      rcases mem_insertEdge _ _ _ f hf with h | h
      · rw [h]
      · exact le_of_lt (hstrict f h)
  · show List.Chain' (fun a b => a < b) (pathNodes (attachOne d l))
    rw [hpath', List.chain'_iff_pairwise, List.pairwise_append]
    refine ⟨List.chain'_iff_pairwise.1 hc.pathMono, by simp, ?_⟩
    intro a ha b hb
    rw [List.mem_singleton.1 hb]
    exact hc.pathLt a ha
  · intro x hx
    show x < d.nextId + 1
    rw [hpath'] at hx
    rcases List.mem_append.1 hx with hx | hx
    · have := hc.pathLt x hx
      omega
    · rw [List.mem_singleton.1 hx]
      omega
  · intro e he
    rcases List.mem_append.1 he with he | he
    · have he22 : e.2.2 ∈ pathNodes d :=
        List.mem_cons_of_mem _ (List.mem_map.2 ⟨e, he, rfl⟩)
      have he22_lt : e.2.2 < d.nextId := hc.pathLt _ he22
      intro x f hf htgt
      rw [hGN x] at hf
      by_cases hxn : x = d.nextId
      · rw [if_pos hxn] at hf
        simp [defaultNode] at hf
      · rw [if_neg hxn] at hf
        by_cases hxt : x = frontTip d
        · rw [if_pos hxt] at hf
          rcases mem_insertEdge _ _ _ f hf with h | h
          · exfalso
            rw [h] at htgt
            have h1 : d.nextId = e.2.2 := htgt
            omega
          · exact hc.pathUniq e he x f (by rw [hxt]; exact h) htgt
        · rw [if_neg hxt] at hf
          exact hc.pathUniq e he x f hf htgt
    · rw [List.mem_singleton.1 he]
      intro x f hf htgt
      have htgt' : f.2 = d.nextId := htgt
      rw [hGN x] at hf
      by_cases hxn : x = d.nextId
      · rw [if_pos hxn] at hf
        simp [defaultNode] at hf
      · rw [if_neg hxn] at hf
        by_cases hxt : x = frontTip d
        · rw [if_pos hxt] at hf
          rcases mem_insertEdge _ _ _ f hf with h | h
          · exact ⟨hxt, by rw [h]⟩
          · exfalso
            have := hc.edgesLt (frontTip d) f h
            omega
        · rw [if_neg hxt] at hf
          exfalso
          have := hc.edgesLt x f hf
          omega
  · intro x f hf
    show f.2 ≠ d.root
    rw [hGN x] at hf
    by_cases hxn : x = d.nextId
    · rw [if_pos hxn] at hf
      simp [defaultNode] at hf
    · rw [if_neg hxn] at hf
      by_cases hxt : x = frontTip d
      · rw [if_pos hxt] at hf
        rcases mem_insertEdge _ _ _ f hf with h | h
        · rw [h]
          intro heq
          have h1 : d.nextId = d.root := heq
          omega
        · exact hc.rootNoIn (frontTip d) f h
      · rw [if_neg hxt] at hf
        exact hc.rootNoIn x f hf
  · intro m hm hmp
    rw [hpath'] at hmp
    rcases List.mem_append.1 hmp with hmp | hmp
    · exact hc.regNotPath m hm hmp
    · have h1 : m.2 = d.nextId := List.mem_singleton.1 hmp
      have := hc.minimizedLt m hm
      omega
  · intro m hm
    show sigNode (getNode (attachOne d l).store m.2) = m.1
    have hmn : m.2 ≠ d.nextId := by
      have := hc.minimizedLt m hm
      omega
    have hmt : m.2 ≠ frontTip d := fun h => hc.regNotPath m hm (h ▸ ht_path)
    rw [hGN m.2, if_neg hmn, if_neg hmt]
    exact hc.regSig m hm
  · show (getNode (attachOne d l).store d.root).terminal = false
    have hrn : d.root ≠ d.nextId := by omega
    rw [hGN d.root, if_neg hrn]
    by_cases hrt : d.root = frontTip d
    · rw [if_pos hrt]
      show (getNode d.store (frontTip d)).terminal = false
      rw [← hrt]
      exact hc.rootNotTerminal
    · rw [if_neg hrt]
      exact hc.rootNotTerminal
  · intro x f hf
    show f.1.toNat < 128
    rw [hGN x] at hf
    by_cases hxn : x = d.nextId
    · rw [if_pos hxn] at hf
      simp [defaultNode] at hf
    · rw [if_neg hxn] at hf
      by_cases hxt : x = frontTip d
      · rw [if_pos hxt] at hf
        rcases mem_insertEdge _ _ _ f hf with h | h
        · rw [h]
          exact hl
        · exact hc.labelsAscii (frontTip d) f h
      · rw [if_neg hxt] at hf
        exact hc.labelsAscii x f hf
  · show (d.unchecked ++ [(frontTip d, l, d.nextId)]).length ≤ 128
    simp only [List.length_append, List.length_singleton]
    omega
  · intro q
    show accepts (attachOne d l).store d.root q = true ↔ q ∈ ws
    rw [hacc q d.root hroot_lt]
    exact hc.lang q
  · rw [hGN d.nextId, if_pos rfl]
    rfl
  · rw [frontTip_eq_lastNode]
    exact lastNode_concat _ _ _

theorem attachLoop_inv (ws : List (List Char)) :
    ∀ (rest : List Char) (d : Dawg), Core d ws →
      (∀ c ∈ rest, c.toNat < 128) →
      d.unchecked.length + rest.length ≤ 128 →
      (∀ hr : rest ≠ [], ∀ e ∈ (getNode d.store (frontTip d)).edges, e.1 < rest.head hr) →
      Core (attachLoop d rest) ws
      ∧ (attachLoop d rest).root = d.root
      ∧ (attachLoop d rest).previousWord = d.previousWord
      ∧ (attachLoop d rest).minimized = d.minimized
      ∧ (attachLoop d rest).unchecked.map (fun e => e.2.1)
          = d.unchecked.map (fun e => e.2.1) ++ rest
      ∧ (rest ≠ [] →
          (getNode (attachLoop d rest).store (frontTip (attachLoop d rest))).edges = [])
      ∧ (∀ (q : List Char) (x : Nat), x < d.nextId →
          accepts (attachLoop d rest).store x q = accepts d.store x q) := by
  intro rest
  induction rest with
  | nil =>
    intro d hc _ _ _
    exact ⟨hc, rfl, rfl, rfl, by simp [attachLoop], fun h => absurd rfl h, fun _ _ _ => rfl⟩
  | cons c rest' ih =>
    intro d hc hascii hlen hstrict
    have hl : c.toNat < 128 := hascii c (List.mem_cons_self _ _)
    have hlen1 : d.unchecked.length < 128 := by
      simp only [List.length_cons] at hlen
      omega
    have hstrict1 : ∀ e ∈ (getNode d.store (frontTip d)).edges, e.1 < c :=
      hstrict (List.cons_ne_nil c rest')
    obtain ⟨hc1, hroot1, hnid1, hprev1, hmin1, hun1, hfresh1, htip1, hacc1⟩ :=
      attachOne_inv d ws c hc hl hlen1 hstrict1
    have hascii' : ∀ b ∈ rest', b.toNat < 128 := fun b hb => hascii b (List.mem_cons_of_mem _ hb)
    have hlen' : (attachOne d c).unchecked.length + rest'.length ≤ 128 := by
      rw [hun1]
      simp only [List.length_append, List.length_singleton]
      simp only [List.length_cons] at hlen
      omega
    have hstrict' : ∀ hr : rest' ≠ [],
        ∀ e ∈ (getNode (attachOne d c).store (frontTip (attachOne d c))).edges,
          e.1 < rest'.head hr := by
      intro hr e he
      rw [htip1, hfresh1] at he
      simp at he
    obtain ⟨hc2, hroot2, hprev2, hmin2, hun2, htip2, hacc2⟩ :=
      ih (attachOne d c) hc1 hascii' hlen' hstrict'
    refine ⟨hc2, hroot2.trans hroot1, hprev2.trans hprev1, ?_, ?_, ?_, ?_⟩
    · show (attachLoop (attachOne d c) rest').minimized = d.minimized
      exact hmin2.trans hmin1
    · show (attachLoop (attachOne d c) rest').unchecked.map (fun e => e.2.1)
        = d.unchecked.map (fun e => e.2.1) ++ (c :: rest')
      rw [hun2, hun1]
      simp
    · intro _
      rcases eq_or_ne rest' [] with h' | h'
      · subst h'
        show (getNode (attachOne d c).store (frontTip (attachOne d c))).edges = []
        rw [htip1]
        exact hfresh1
      · show (getNode (attachLoop (attachOne d c) rest').store
            (frontTip (attachLoop (attachOne d c) rest'))).edges = []
        exact htip2 h'
    · intro q x hx
      show accepts (attachLoop (attachOne d c) rest').store x q = accepts d.store x q
      rw [hacc2 q x (by rw [hnid1]; omega), hacc1 q x hx]

theorem markFinal_inv (d2 : Dawg) (ws : List (List Char)) (w : List Char) (hc2 : Core d2 ws)
    (hlet : d2.unchecked.map (fun e => e.2.1) = w)
    (hwne : w ≠ [])
    (htip : (getNode d2.store (frontTip d2)).edges = []) :
    ∃ d3 : Dawg, markLastTerminal d2 = some d3
      ∧ DawgInv { d3 with previousWord := w } (ws ++ [w]) := by
  have hne2 : d2.unchecked ≠ [] := by
    intro h
    rw [h] at hlet
    exact hwne hlet.symm
  have hgl2 : d2.unchecked.getLast? = some (d2.unchecked.getLast hne2) :=
    List.getLast?_eq_getLast _ hne2
  have hf : frontTip d2 = (d2.unchecked.getLast hne2).2.2 := by
    unfold frontTip
    rw [hgl2]
  set fN := (d2.unchecked.getLast hne2).2.2 with hfN
  set σ3 := setNode d2.store fN { getNode d2.store fN with terminal := true } with hσ3
  have h_edges3 : ∀ x : Nat, (getNode σ3 x).edges = (getNode d2.store x).edges := by
    intro x
    rw [hσ3, getNode_setNode]
    by_cases hx : x = fN
    · rw [if_pos hx, hx]
    · rw [if_neg hx]
  have hfN_path : fN ∈ pathNodes d2 := by
    rw [← hf, frontTip_eq_lastNode, lastNode_eq_getLast]
    exact List.getLast_mem _
  have hfN_keys : fN ∈ d2.store.map Prod.fst := by
    rw [hc2.storeKeys, List.mem_range]
    exact hc2.pathLt _ hfN_path
  have h_keys : σ3.map Prod.fst = List.range d2.nextId := by
    rw [hσ3, setNode_map_fst _ _ _ hfN_keys]
    exact hc2.storeKeys
  have h_edgesLt : ∀ x : Nat, ∀ e ∈ (getNode σ3 x).edges, e.2 < d2.nextId := by
    intro x e he
    rw [h_edges3 x] at he
    exact hc2.edgesLt x e he
  have h_frontier : frontierOK σ3 d2.root d2.unchecked :=
    frontierOK_congr_edges d2.store σ3 d2.unchecked d2.root (fun x _ => h_edges3 x) hc2.frontier
  have h_uniq : ∀ e ∈ d2.unchecked, UniqIn σ3 e.1 e.2.1 e.2.2 := by
    intro e he x g hg htgt
    rw [h_edges3 x] at hg
    exact hc2.pathUniq e he x g hg htgt
  have h_noin : ∀ x : Nat, ∀ g ∈ (getNode σ3 x).edges, g.2 ≠ d2.root := by
    intro x g hg
    rw [h_edges3 x] at hg
    exact hc2.rootNoIn x g hg
  have h_ascii : ∀ x : Nat, ∀ g ∈ (getNode σ3 x).edges, g.1.toNat < 128 := by
    intro x g hg
    rw [h_edges3 x] at hg
    exact hc2.labelsAscii x g hg
  have h_regsig : ∀ m ∈ d2.minimized, sigNode (getNode σ3 m.2) = m.1 := by
    intro m hm
    have hmf : m.2 ≠ fN := by
      intro heq
      exact hc2.regNotPath m hm (heq ▸ hfN_path)
    rw [hσ3, getNode_setNode, if_neg hmf]
    exact hc2.regSig m hm
  have hlast_mem : d2.unchecked.getLast hne2 ∈ d2.unchecked := List.getLast_mem hne2
  have hlkf : lookupEdge (getNode d2.store (d2.unchecked.getLast hne2).1).edges
      (d2.unchecked.getLast hne2).2.1 = some (d2.unchecked.getLast hne2).2.2 :=
    (frontierOK_mem _ _ _ hc2.frontier _ hlast_mem).1
  have hfr : fN ≠ d2.root :=
    hc2.rootNoIn _ _ (lookupEdge_mem _ _ _ hlkf)
  have h_rootterm : (getNode σ3 d2.root).terminal = false := by
    rw [hσ3, getNode_setNode, if_neg (fun h => hfr h.symm)]
    exact hc2.rootNotTerminal
  have huniq : ∀ q : List Char, walk d2.store d2.root q = some fN ↔ q = w := by
    intro q
    constructor
    · intro hq
      have harg : walk d2.store d2.root q = some (lastNode d2.root d2.unchecked) := by
        rw [hq, ← hf, frontTip_eq_lastNode]
      have h1 := walk_path_unique d2.store d2.unchecked d2.root hc2.frontier hc2.pathUniq
        hc2.rootNoIn hc2.pathMono q harg
      rw [hlet] at h1
      exact h1
    · intro hq
      subst hq
      rw [← hlet, frontierOK_travPath d2.store d2.unchecked d2.root hc2.frontier,
        ← frontTip_eq_lastNode, hf]
  have h_lang : ∀ q : List Char, accepts σ3 d2.root q = true ↔ q ∈ ws ++ [w] := by
    intro q
    rw [hσ3, accepts_flip, List.mem_append, List.mem_singleton, hc2.lang q, huniq q]
  have hft2 : frontTip { { d2 with store := σ3 } with previousWord := w } = fN := by
    rw [frontTip_eq_lastNode]
    show lastNode d2.root d2.unchecked = fN
    rw [← frontTip_eq_lastNode d2]
    exact hf
  have htipE : (getNode σ3 (frontTip { { d2 with store := σ3 } with previousWord := w })).edges
      = [] := by
    rw [hft2, h_edges3 fN, ← hf]
    exact htip
  refine ⟨{ d2 with store := σ3 }, ?_, ?_⟩
  · unfold markLastTerminal
    rw [hgl2]
  · exact ⟨⟨h_keys, h_edgesLt, hc2.minimizedLt, h_frontier, hc2.pathMono, hc2.pathLt,
      h_uniq, h_noin, hc2.regNotPath, h_regsig, h_rootterm, h_ascii, hc2.lenBound, h_lang⟩,
      hlet, htipE⟩

theorem frontierOK_mid_parent (σ : Store) (l1 l2 : List (Nat × Char × Nat))
    (e : Nat × Char × Nat) (p : Nat)
    (h : frontierOK σ p (l1 ++ e :: l2)) : e.1 = lastNode p l1 := by
  apply frontierOK_last_parent σ l1 e p
  apply frontierOK_prefix σ (l1 ++ [e]) l2 p
  rw [List.append_assoc]
  exact h

theorem add_inv (d : Dawg) (ws : List (List Char)) (w : List Char)
    (hinv : DawgInv d ws) (hg : goodWord w)
    (hlt : listLt d.previousWord w = true) :
    ∃ dfin : Dawg, add d w = some dfin ∧ DawgInv dfin (ws ++ [w])
      ∧ dfin.previousWord = w := by
  obtain ⟨hwne, hw128, hwascii⟩ := hg
  have hc := hinv.toCore
  have hulen : d.unchecked.length = d.previousWord.length := by
    rw [← hinv.lettersEq]
    simp
  have hcp_w : commonPrefixLen w d.previousWord < w.length := listLt_cp_lt w d.previousWord hlt
  have hcp_prev : commonPrefixLen w d.previousWord ≤ d.previousWord.length :=
    commonPrefixLen_le_right w d.previousWord
  have hcp_u : commonPrefixLen w d.previousWord ≤ d.unchecked.length := by omega
  have hnot : listLt w d.previousWord = false := listLt_asymm d.previousWord w hlt
  have hmin : minimize d (commonPrefixLen w d.previousWord)
      = some (iterateMin d (d.unchecked.length - commonPrefixLen w d.previousWord)) :=
    minimize_eq_iterateMin d _ hc.lenBound hcp_u
  obtain ⟨hc1, hroot1, hnid1, hprev1, hterm1, hlab1, hacc1⟩ :=
    iterateMin_core ws (d.unchecked.length - commonPrefixLen w d.previousWord) d hc (by omega)
  have hun1 : (iterateMin d (d.unchecked.length - commonPrefixLen w d.previousWord)).unchecked
      = d.unchecked.take (commonPrefixLen w d.previousWord) := by
    rw [iterateMin_unchecked _ d (by omega)]
    congr 1
    omega
  have hrest_ne : w.drop (commonPrefixLen w d.previousWord) ≠ [] := by
    intro h
    rw [List.drop_eq_nil_iff_le] at h
    omega
  obtain ⟨cw, wtail, hwsp⟩ : ∃ cw wtail,
      w.drop (commonPrefixLen w d.previousWord) = cw :: wtail := by
    cases hd : w.drop (commonPrefixLen w d.previousWord) with
    | nil => exact absurd hd hrest_ne
    | cons a t => exact ⟨a, t, rfl⟩
  have hw_cp : w.get? (commonPrefixLen w d.previousWord) = some cw := by
    have h1 : (w.drop (commonPrefixLen w d.previousWord)).get? 0
        = w.get? (commonPrefixLen w d.previousWord + 0) := List.get?_drop _ _ _
    rw [hwsp] at h1
    simpa using h1.symm
  have hascii_rest : ∀ c ∈ cw :: wtail, c.toNat < 128 := by
    rw [← hwsp]
    exact fun c hcm => hwascii c (List.drop_subset _ _ hcm)
  have hlen_attach :
      (iterateMin d (d.unchecked.length - commonPrefixLen w d.previousWord)).unchecked.length
        + (cw :: wtail).length ≤ 128 := by
    rw [← hwsp, hun1, List.length_take, List.length_drop]
    omega
  have hstrict_core : ∀ e ∈ (getNode
      (iterateMin d (d.unchecked.length - commonPrefixLen w d.previousWord)).store
      (frontTip (iterateMin d (d.unchecked.length - commonPrefixLen w d.previousWord)))).edges,
      e.1 < cw := by
    by_cases hcpfull : commonPrefixLen w d.previousWord = d.previousWord.length
    · have hk0 : d.unchecked.length - commonPrefixLen w d.previousWord = 0 := by omega
      intro e he
      rw [hk0] at he
      have he' : e ∈ (getNode d.store (frontTip d)).edges := he
      rw [hinv.tipEmpty] at he'
      simp at he'
    · have hcp_lt_u : commonPrefixLen w d.previousWord < d.unchecked.length := by omega
      have hd_ne : d.unchecked.drop (commonPrefixLen w d.previousWord) ≠ [] := by
        intro h
        rw [List.drop_eq_nil_iff_le] at h
        omega
      obtain ⟨ecp, etail, hsp⟩ : ∃ ecp etail,
          d.unchecked.drop (commonPrefixLen w d.previousWord) = ecp :: etail := by
        cases hd : d.unchecked.drop (commonPrefixLen w d.previousWord) with
        | nil => exact absurd hd hd_ne
        | cons a t => exact ⟨a, t, rfl⟩
      have hu_split : d.unchecked
          = d.unchecked.take (commonPrefixLen w d.previousWord) ++ ecp :: etail := by
        rw [← hsp, List.take_append_drop]
      have hecp_par : ecp.1
          = lastNode d.root (d.unchecked.take (commonPrefixLen w d.previousWord)) :=
        frontierOK_mid_parent d.store _ _ _ _ (by rw [← hu_split]; exact hc.frontier)
      have ht1 : frontTip (iterateMin d
          (d.unchecked.length - commonPrefixLen w d.previousWord)) = ecp.1 := by
        rw [frontTip_eq_lastNode, hun1, hroot1, ← hecp_par]
      have hecp_get : d.unchecked.get? (commonPrefixLen w d.previousWord) = some ecp := by
        have h1 : (d.unchecked.drop (commonPrefixLen w d.previousWord)).get? 0
            = d.unchecked.get? (commonPrefixLen w d.previousWord + 0) := List.get?_drop _ _ _
        rw [hsp] at h1
        simpa using h1.symm
      have hprev_cp : d.previousWord.get? (commonPrefixLen w d.previousWord)
          = some ecp.2.1 := by
        have h2 : (d.unchecked.map (fun e => e.2.1)).get? (commonPrefixLen w d.previousWord)
            = some ecp.2.1 := by
          rw [List.get?_map, hecp_get]
          rfl
        rw [hinv.lettersEq] at h2
        exact h2
      have hlt_cp : ecp.2.1 < cw := listLt_get_cp w d.previousWord hlt ecp.2.1 cw hprev_cp hw_cp
      intro e he
      have hmemfst : e.1 ∈ ((getNode
          (iterateMin d (d.unchecked.length - commonPrefixLen w d.previousWord)).store
          (frontTip (iterateMin d
            (d.unchecked.length - commonPrefixLen w d.previousWord)))).edges).map Prod.fst :=
        List.mem_map.2 ⟨e, he, rfl⟩
      rw [hlab1] at hmemfst
      obtain ⟨e0, he0, heq0⟩ := List.mem_map.1 hmemfst
      rw [ht1] at he0
      have hecp_mem : ecp ∈ d.unchecked := by
        rw [hu_split]
        exact List.mem_append_right _ (List.mem_cons_self _ _)
      have hbnd := (frontierOK_mem d.store d.unchecked d.root hc.frontier ecp hecp_mem).2 e0 he0
      rw [← heq0]
      exact lt_of_le_of_lt hbnd hlt_cp
  have hstrict_attach : ∀ _ : (cw :: wtail) ≠ [],
      ∀ e ∈ (getNode
        (iterateMin d (d.unchecked.length - commonPrefixLen w d.previousWord)).store
        (frontTip (iterateMin d
          (d.unchecked.length - commonPrefixLen w d.previousWord)))).edges,
        e.1 < cw :=
    fun _ => hstrict_core
  obtain ⟨hc2, hroot2, hprev2, hmin2, hun2, htip2, hacc2⟩ :=
    attachLoop_inv ws (cw :: wtail)
      (iterateMin d (d.unchecked.length - commonPrefixLen w d.previousWord)) hc1
      hascii_rest hlen_attach hstrict_attach
  have hlet2 : (attachLoop (iterateMin d
      (d.unchecked.length - commonPrefixLen w d.previousWord))
      (cw :: wtail)).unchecked.map (fun e => e.2.1) = w := by
    rw [hun2, hun1, List.map_take, hinv.lettersEq, ← commonPrefixLen_take w d.previousWord,
      ← hwsp, List.take_append_drop]
  obtain ⟨d3, hmark, hinv3⟩ := markFinal_inv
    (attachLoop (iterateMin d (d.unchecked.length - commonPrefixLen w d.previousWord))
      (cw :: wtail))
    ws w hc2 hlet2 hwne (htip2 (List.cons_ne_nil cw wtail))
  refine ⟨{ d3 with previousWord := w }, ?_, hinv3, rfl⟩
  unfold add
  rw [hnot, if_neg Bool.false_ne_true, hmin]
  show (match markLastTerminal (attachLoop
        (iterateMin d (d.unchecked.length - commonPrefixLen w d.previousWord))
        (w.drop (commonPrefixLen w d.previousWord))) with
      | none => none
      | some d2x => some { d2x with previousWord := w }) = some { d3 with previousWord := w }
  rw [hwsp, hmark]

theorem walkG_true (σ : Store) : ∀ (q : List Char) (x : Nat), walkG σ true x q = walk σ x q := by
  intro q
  induction q with
  | nil => intro x; rfl
  | cons c v ih =>
    intro x
    show (match lookupEdge (getNode σ x).edges c with
          | some t => walkG σ true t v
          | none => none) = walk σ x (c :: v)
    simp only [walk]
    cases lookupEdge (getNode σ x).edges c with
    | none => rfl
    | some t => exact ih t

theorem isWord_true_of_core (d1 : Dawg) (ws : List (List Char)) (hc1 : Core d1 ws)
    (hws : ∀ w ∈ ws, ∀ c ∈ w, c.toNat < 128) :
    ∀ q : List Char, isWord d1 q true = (if q ∈ ws then some (some q) else some none) := by
  intro q
  unfold isWord
  rw [find_spec]
  rw [walkG_true]
  by_cases hq : q ∈ ws
  · rw [if_pos hq]
    have hacc : accepts d1.store d1.root q = true := (hc1.lang q).2 hq
    unfold accepts at hacc
    cases hwalk : walk d1.store d1.root q with
    | none =>
      rw [hwalk] at hacc
      simp at hacc
    | some n =>
      rw [hwalk] at hacc
      have hterm : (getNode d1.store n).terminal = true := hacc
      have hbl : byteLen q = q.length := by
        rw [byteLen_eq_length_iff]
        exact hws q hq
      show (match (if byteLen q = q.length then some (some n) else none : Option (Option Nat)) with
            | none => none
            | some none => some none
            | some (some m) => some (if (getNode d1.store m).terminal then some q else none))
          = some (some q)
      rw [if_pos hbl]
      show some (if (getNode d1.store n).terminal then some q else none) = some (some q)
      rw [hterm, if_pos rfl]
  · rw [if_neg hq]
    have hacc : accepts d1.store d1.root q = false := by
      cases h2 : accepts d1.store d1.root q with
      | false => rfl
      | true => exact absurd ((hc1.lang q).1 h2) hq
    cases hwalk : walk d1.store d1.root q with
    | none => rfl
    | some n =>
      have hterm : (getNode d1.store n).terminal = false := by
        unfold accepts at hacc
        rw [hwalk] at hacc
        exact hacc
      have hqascii : ∀ c ∈ q, c.toNat < 128 := by
        by_contra hcon
        push_neg at hcon
        obtain ⟨c, hcm, hcge⟩ := hcon
        have hnone := walk_none_of_nonascii d1.store hc1.labelsAscii q d1.root
          ⟨c, hcm, by omega⟩
        rw [hwalk] at hnone
        simp at hnone
      have hbl : byteLen q = q.length := (byteLen_eq_length_iff q).2 hqascii
      show (match (if byteLen q = q.length then some (some n) else none : Option (Option Nat)) with
            | none => none
            | some none => some none
            | some (some m) => some (if (getNode d1.store m).terminal then some q else none))
          = some none
      rw [if_pos hbl]
      show some (if (getNode d1.store n).terminal then some q else none) = some none
      rw [hterm, if_neg Bool.false_ne_true]

theorem finish_query (d : Dawg) (ws : List (List Char)) (hc : Core d ws)
    (hws : ∀ w ∈ ws, ∀ c ∈ w, c.toNat < 128) :
    ∃ df : Dawg, finish d = some df
      ∧ ∀ q : List Char, isWord df q true = (if q ∈ ws then some (some q) else some none) := by
  have hmin0 : minimize d 0 = some (iterateMin d (d.unchecked.length - 0)) :=
    minimize_eq_iterateMin d 0 hc.lenBound (Nat.zero_le _)
  obtain ⟨hc1, hr1, hn1, hp1, ht1, hl1, ha1⟩ :=
    iterateMin_core ws (d.unchecked.length - 0) d hc (by omega)
  have hfin : finish d = some { iterateMin d (d.unchecked.length - 0) with
      store := (nrGo (rcOf (iterateMin d (d.unchecked.length - 0)))
        (2 * (iterateMin d (d.unchecked.length - 0)).nextId + 2)
        (iterateMin d (d.unchecked.length - 0)).store
        [(iterateMin d (d.unchecked.length - 0)).root]).1,
      minimized := [], unchecked := [] } := by
    unfold finish
    rw [hmin0]
  refine ⟨_, hfin, ?_⟩
  intro q
  have h := finish_isWord_eq d q true
  rw [hfin, hmin0] at h
  simp only [Option.map_some', Option.some.injEq] at h
  rw [h]
  exact isWord_true_of_core _ ws hc1 hws q

theorem getNode_dawgNew (x : Nat) : getNode dawgNew.store x = defaultNode := by
  show getNode [(0, defaultNode)] x = defaultNode
  by_cases hx : x = 0
  · rw [getNode, if_pos hx]
  · rw [getNode, if_neg hx]
    rfl

theorem dawgNew_inv : DawgInv dawgNew [] := by
  have hlang : ∀ q : List Char, accepts dawgNew.store dawgNew.root q = true ↔ q ∈ ([] : List (List Char)) := by
    intro q
    constructor
    · intro hacc
      exfalso
      cases q with
      | nil =>
        have hacc' : (getNode dawgNew.store dawgNew.root).terminal = true := hacc
        rw [getNode_dawgNew] at hacc'
        simp [defaultNode] at hacc'
      | cons c v =>
        rw [accepts_cons, getNode_dawgNew] at hacc
        simp [defaultNode, lookupEdge] at hacc
    · intro h
      simp at h
  refine ⟨⟨rfl, ?_, ?_, trivial, ?_, ?_, ?_, ?_, ?_, ?_, rfl, ?_, ?_, hlang⟩, rfl, ?_⟩
  · intro x e he
    rw [getNode_dawgNew] at he
    simp [defaultNode] at he
  · intro m hm
    simp [dawgNew] at hm
  · simp [pathNodes, dawgNew]
  · intro x hx
    simp [pathNodes, dawgNew] at hx
    rw [hx]
    decide
  · intro e he
    simp [dawgNew] at he
  · intro x e he
    rw [getNode_dawgNew] at he
    simp [defaultNode] at he
  · intro m hm
    simp [dawgNew] at hm
  · intro m hm
    simp [dawgNew] at hm
  · intro x e he
    rw [getNode_dawgNew] at he
    simp [defaultNode] at he
  · show ([] : List (Nat × Char × Nat)).length ≤ 128
    simp
  · show (getNode dawgNew.store (frontTip dawgNew)).edges = []
    rw [getNode_dawgNew]
    rfl

theorem buildFrom_inv (ws : List (List Char)) :
    ∀ (d : Dawg) (acc : List (List Char)), DawgInv d acc →
      (∀ w ∈ ws, goodWord w) →
      List.Chain' (fun a b => listLt a b = true) (d.previousWord :: ws) →
      ∃ df : Dawg, buildFrom d ws = some df ∧ DawgInv df (acc ++ ws) := by
  induction ws with
  | nil =>
    intro d acc hinv _ _
    exact ⟨d, rfl, by simpa using hinv⟩
  | cons w rest ih =>
    intro d acc hinv hgood hchain
    have hlt : listLt d.previousWord w = true := (List.chain'_cons.1 hchain).1
    obtain ⟨d1, hadd, hinv1, hprev⟩ :=
      add_inv d acc w hinv (hgood w (List.mem_cons_self _ _)) hlt
    have hchain1 : List.Chain' (fun a b => listLt a b = true) (d1.previousWord :: rest) := by
      rw [hprev]
      exact (List.chain'_cons.1 hchain).2
    obtain ⟨df, hbf, hinvf⟩ := ih d1 (acc ++ [w]) hinv1
      (fun v hv => hgood v (List.mem_cons_of_mem _ hv)) hchain1
    refine ⟨df, ?_, by rwa [List.append_assoc] at hinvf⟩
    show (match add d w with
          | some d2 => buildFrom d2 rest
          | none => none) = some df
    rw [hadd]
    exact hbf

/-- Claim C1 (amended): for every strictly sorted (hence duplicate-free)
list of non-empty, pure-ASCII words of at most 128 characters, inserting
them via `add` and calling `finish` succeeds, and the case-sensitive
query `is_word(q, true)` returns `Some` for exactly the inserted words
and `None` for every other string.  The 128-character bound is required:
the original claim fails for words of 129 characters and more because
the `i8` frontier arithmetic in `minimize` breaks. -/
theorem claim_C1_amended (ws : List (List Char))
    (hsorted : List.Chain' (fun a b => listLt a b = true) ws)
    (hgood : ∀ w ∈ ws, w ≠ [] ∧ w.length ≤ 128 ∧ ∀ c ∈ w, c.toNat < 128) :
    ∃ df : Dawg, buildFinish ws = some df
      ∧ ∀ q : List Char, isWord df q true = (if q ∈ ws then some (some q) else some none) := by
  have hchain : List.Chain' (fun a b => listLt a b = true) (dawgNew.previousWord :: ws) := by
    cases ws with
    | nil => simp
    | cons w rest =>
      rw [List.chain'_cons]
      refine ⟨?_, hsorted⟩
      show listLt [] w = true
      exact listLt_nil_of_ne w (hgood w (List.mem_cons_self _ _)).1
  obtain ⟨d, hbf, hinv⟩ := buildFrom_inv ws dawgNew [] dawgNew_inv hgood hchain
  rw [List.nil_append] at hinv
  obtain ⟨df, hfin, hquery⟩ := finish_query d ws hinv.toCore (fun w hw => (hgood w hw).2.2)
  refine ⟨df, ?_, hquery⟩
  unfold buildFinish
  rw [hbf]
  exact hfin

/-- Witness for the amended C1: the single-word list `["cat"]` gives an
automaton on which the full word is accepted and the proper prefix
`"ca"` is rejected. -/
theorem claim_C1_witness :
    (buildFinish [['c', 'a', 't']]).map (fun df =>
        (isWord df ['c', 'a', 't'] true, isWord df ['c', 'a'] true))
      = some (some (some ['c', 'a', 't']), some none) := by
  obtain ⟨df, hdf, hq⟩ := claim_C1_amended [['c', 'a', 't']] (List.chain'_singleton _)
    (by decide)
  rw [hdf]
  simp only [Option.map_some']
  rw [hq ['c', 'a', 't'], hq ['c', 'a'], if_pos (by decide), if_neg (by decide)]
